import Mathlib

/-!
# Cooperative context switching: a model of `main.c`

The program keeps a ring of `thread_t` descriptors, each owning a 0x1000-byte
stack block, and switches between them with `cswitch`.  The model below keeps

* the `thread_t` objects in a typed heap (address ↦ object, `0` is `NULL`),
* stack memory as 8-byte words addressed by byte address,
* the stack pointer, the six callee-saved registers and the address control
  has been transferred to,
* the lines written to standard output and the list of `cswitch` calls made.

The routine `cswitch` is not part of `main.c`.  The program carries it as a
component (`Code.cswitch`): what `main.c` itself guarantees is proved for every
routine that meets the contract `Code.switch_ok`; what depends on the switch of
stacks and registers is proved for the routine `cswitch` below, modelled from the
specification.

All addresses are 64-bit words; arithmetic on them wraps modulo `2 ^ 64`.  An access
through a `NULL` pointer, be it to a descriptor or to a stack block that `malloc`
failed to provide, has no result: the run ends there.

Calls follow the convention that `regs_t` records: a `call` pushes the return
address on the running stack and `ret` pops it.  The source does not fix the stack
frames of its functions.  Where the thread bodies `func1` and `func2` are run, one
layout is chosen: a body keeps `local_var` in the one word of its stack frame, and
`scheduler` keeps `prev` and `next` in registers, which need not survive its call of
`cswitch`.  What is proved about the state a thread finds when it is switched back to
does not use this layout: there the work of a thread between two calls of `cswitch`
is arbitrary, as long as it stays inside the stack block of the thread.  The functions of the
source that transfer control (`scheduler`, the thread bodies, `start_scheduler`,
`main`) are followed up to the point where `cswitch` has passed control on;
`resume` continues from the address control arrived at.
-/

namespace CSwitch

/-! ## Machine words and memory -/

/-- Sum of two 64-bit words. -/
def add64 (a b : Nat) : Nat := (a + b) % 2 ^ 64

/-- Difference of two 64-bit words. -/
def sub64 (a b : Nat) : Nat := (a + 2 ^ 64 - b % 2 ^ 64) % 2 ^ 64

/-- Memory after the word at address `a` is set to `v`. -/
def store (m : Nat → Nat) (a v : Nat) : Nat → Nat :=
  fun x => if x = a then v else m x

/-! ## Data model (`main.c`, lines 13-32) -/

/-- The `regs_t` of the source: the callee-saved registers in the order software
pushes them, then the return address pushed by the `call` instruction. -/
structure regs_t where
  rbx : Nat
  rbp : Nat
  r12 : Nat
  r13 : Nat
  r14 : Nat
  r15 : Nat
  rip : Nat
deriving DecidableEq

/-- Size in bytes of `regs_t`: seven `u64` fields. -/
def sizeof_regs_t : Nat := 7 * 8

/-- Byte offset of the field `rip` inside `regs_t`: six `u64` fields precede it. -/
def offsetof_rip : Nat := 6 * 8

/-- The `thread_t` of the source. -/
structure thread_t where
  saved_sp : Nat
  stack_page : Nat
  next : Nat
deriving DecidableEq

/-- A line written by `printf`: the format string it came from and its arguments. -/
inductive Line where
  | created (t rip stack_page : Nat)
  | in_function (n local_var : Nat)
deriving DecidableEq

/-- Machine state. `cur_thread` is the global of the source; `rip` is the address
control was last transferred to by a `ret`; `switches` records every call
`cswitch(old, new)` made by `main.c`, in order. -/
structure Machine where
  heap : Nat → Option thread_t
  mem : Nat → Nat
  cur_thread : Nat
  rsp : Nat
  rbx : Nat
  rbp : Nat
  r12 : Nat
  r13 : Nat
  r14 : Nat
  r15 : Nat
  rip : Nat
  stdout : List Line
  switches : List (Nat × Nat)

/-- The program as linked.  The addresses of its code that end up in memory: the two
thread entrypoints and the return addresses of the call sites of `scheduler` and
`cswitch`.  And the routine `cswitch`, which `main.c` declares and calls but does not
define: given the return address of the call and the arguments `old` and `new`, it
acts on the machine. -/
structure Code where
  func1 : Nat
  func2 : Nat
  func1_ret : Nat
  func2_ret : Nat
  scheduler_ret : Nat
  start_ret : Nat
  cswitch : Nat → Nat → Nat → Machine → Option Machine

/-! ## Access to `thread_t` objects -/

/-- The object a `thread_t *` points to; `NULL` and dangling pointers have none. -/
def deref (s : Machine) (p : Nat) : Option thread_t :=
  if p = 0 then none else s.heap p

/-- The state with the object at `p` replaced. -/
def put (s : Machine) (p : Nat) (o : thread_t) : Machine :=
  { s with heap := fun x => if x = p then some o else s.heap x }

/-- A new `thread_t` object at `p` with indeterminate fields (`malloc`, or a local
variable): the fields are what the heap held at `p`, zero if it held nothing.  A
failed allocation (`p = 0`) creates nothing. -/
def new_thread (p : Nat) (s : Machine) : Machine :=
  if p = 0 then s else put s p ((s.heap p).getD ⟨0, 0, 0⟩)

/-- The assignment `p->saved_sp = v`. -/
def set_saved_sp (p v : Nat) (s : Machine) : Option Machine :=
  (deref s p).map fun o => put s p { o with saved_sp := v }

/-- The assignment `p->stack_page = v`. -/
def set_stack_page (p v : Nat) (s : Machine) : Option Machine :=
  (deref s p).map fun o => put s p { o with stack_page := v }

/-- The assignment `p->next = v`. -/
def set_next (p v : Nat) (s : Machine) : Option Machine :=
  (deref s p).map fun o => put s p { o with next := v }

/-! ## Register frames in stack memory -/

/-- Memory after a `regs_t` is written at address `a`. -/
def store_regs (m : Nat → Nat) (a : Nat) (r : regs_t) : Nat → Nat :=
  store (store (store (store (store (store (store m
    (add64 a 48) r.rip) (add64 a 40) r.r15) (add64 a 32) r.r14) (add64 a 24) r.r13)
    (add64 a 16) r.r12) (add64 a 8) r.rbp) (add64 a 0) r.rbx

/-- The `regs_t` found at address `a`. -/
def load_regs (m : Nat → Nat) (a : Nat) : regs_t :=
  { rbx := m (add64 a 0), rbp := m (add64 a 8), r12 := m (add64 a 16),
    r13 := m (add64 a 24), r14 := m (add64 a 32), r15 := m (add64 a 40),
    rip := m (add64 a 48) }

/-- Push one word on the stack. -/
def push (v : Nat) (s : Machine) : Machine :=
  { s with rsp := sub64 s.rsp 8, mem := store s.mem (sub64 s.rsp 8) v }

/-! ## Thread creation (`main.c`, lines 34-54) -/

/-- The store `*p = v` of a word through a pointer `p` into the block that `malloc`
returned at `block`.  As with `deref` of a `NULL` descriptor, a failed allocation
(`block = NULL`) offers no object to access: the store has no result (on the platform
of the program the access faults and the process ends). -/
def store_in (block p v : Nat) (s : Machine) : Option Machine :=
  if block = 0 then none else some { s with mem := store s.mem p v }

/-- The function `create_thread(entrypoint)`. `t` and `stack` are the values returned
by its two `malloc` calls (`0` when the allocation fails).  The source tests neither
value: it goes on to access both objects, and an access through `NULL` has no
result. -/
def create_thread (entrypoint t stack : Nat) (s : Machine) : Option (Nat × Machine) := do
  -- 1. Allocate a thread_t and its stack
  let s := new_thread t s
  let s ← set_stack_page t stack s
  -- 2. Initialize all thread vars
  let s ← set_next t 0 s
  let o ← deref s t
  let s ← set_saved_sp t (add64 o.stack_page (0x1000 - 0x10)) s
  -- 3. Push a regs_t to the new stack and initialize it
  let o ← deref s t
  let s ← set_saved_sp t (sub64 o.saved_sp sizeof_regs_t) s
  let o ← deref s t
  let init_regs := o.saved_sp
  let s ← store_in o.stack_page (add64 init_regs offsetof_rip) entrypoint s
  let s := { s with
    stdout := s.stdout ++ [Line.created t (s.mem (add64 init_regs offsetof_rip)) o.stack_page] }
  some (t, s)

/-! ## The context switch -/

/-- Modelled from the spec: the assembly routine `cswitch` is declared in `main.c`
but defined outside of it.  Following section 4.2 of the specification and the layout
of `regs_t`: the call has pushed the return address `ra`; the six callee-saved
registers are pushed below it, which completes a `regs_t` on the running stack; the
resulting stack pointer is written to `old->saved_sp`; then `new->saved_sp` becomes
the stack pointer, the `regs_t` found there is popped into the registers and control
continues at its `rip`. -/
def cswitch (ra old new : Nat) (s : Machine) : Option Machine := do
  let sp := sub64 s.rsp sizeof_regs_t
  let s := { s with
    mem := store_regs s.mem sp ⟨s.rbx, s.rbp, s.r12, s.r13, s.r14, s.r15, ra⟩,
    rsp := sp }
  let s ← set_saved_sp old sp s
  let n ← deref s new
  let r := load_regs s.mem n.saved_sp
  some { s with
    rsp := add64 n.saved_sp sizeof_regs_t,
    rbx := r.rbx, rbp := r.rbp, r12 := r.r12, r13 := r.r13, r14 := r.r14, r15 := r.r15,
    rip := r.rip }

/-! ## Scheduler and thread bodies (`main.c`, lines 56-91) -/

/-- A call `cswitch(old, new)` in `main.c`, with return address `ra`: the call is
recorded in `switches` and the routine linked into the program is run. -/
def call_cswitch (c : Code) (ra old new : Nat) (s : Machine) : Option Machine :=
  c.cswitch ra old new { s with switches := s.switches ++ [(old, new)] }

/-- The function `scheduler()`, up to the point where `cswitch` has transferred
control. -/
def scheduler (c : Code) (s : Machine) : Option Machine := do
  let prev := s.cur_thread
  let o ← deref s s.cur_thread
  let next := o.next
  let o ← deref s s.cur_thread
  let s := { s with cur_thread := o.next }
  call_cswitch c c.scheduler_ret prev next s

/-- The `printf` of a thread body: `local_var` is the `int` on top of the stack. -/
def print_local (n : Nat) (s : Machine) : Machine :=
  { s with stdout := s.stdout ++ [Line.in_function n (s.mem s.rsp % 2 ^ 32)] }

/-- One pass through the loop of `func1`: the `printf`, then the call of
`scheduler`, which pushes its return address. -/
def func1_loop (c : Code) (s : Machine) : Option Machine :=
  scheduler c (push c.func1_ret (print_local 1 s))

/-- The function `func1` from its first instruction: `local_var` is placed on the
stack and the loop is entered.  The frame is one choice of layout (a single word for
`local_var`, no frame for `scheduler`); the source leaves it to the compiler. -/
def func1 (c : Code) (s : Machine) : Option Machine :=
  func1_loop c (push 0x1111 s)

/-- One pass through the loop of `func2`. -/
def func2_loop (c : Code) (s : Machine) : Option Machine :=
  scheduler c (push c.func2_ret (print_local 2 s))

/-- The function `func2` from its first instruction, with the frame layout of
`func1`. -/
def func2 (c : Code) (s : Machine) : Option Machine :=
  func2_loop c (push 0x2222 s)

/-- The end of `scheduler()` once `cswitch` has returned into it: its `ret` pops the
return address, and the loop of the calling thread body goes on. -/
def scheduler_return (c : Code) (s : Machine) : Option Machine :=
  let ra := s.mem s.rsp
  let s := { s with rsp := add64 s.rsp 8, rip := ra }
  if ra = c.func1_ret then func1_loop c s
  else if ra = c.func2_ret then func2_loop c s
  else none

/-- What the processor does after `cswitch` has transferred control to `rip`, up to
the next transfer of control by `cswitch`.  An address that holds none of the code
above gives no result. -/
def resume (c : Code) (s : Machine) : Option Machine :=
  if s.rip = c.func1 then func1 c s
  else if s.rip = c.func2 then func2 c s
  else if s.rip = c.scheduler_ret then scheduler_return c s
  else none

/-- The function `start_scheduler(init_thread)`; `scratch` is the address of its
local `scratch_thread`. -/
def start_scheduler (c : Code) (scratch init_thread : Nat) (s : Machine) : Option Machine :=
  let s := new_thread scratch s
  let s := { s with cur_thread := init_thread }
  call_cswitch c c.start_ret scratch init_thread s

/-- Addresses handed to `main` by its environment: the results of the eight `malloc`
calls and the address of the local `scratch_thread`. -/
structure Env where
  t0 : Nat
  stack0 : Nat
  t1 : Nat
  stack1 : Nat
  t2 : Nat
  stack2 : Nat
  t3 : Nat
  stack3 : Nat
  scratch : Nat

/-- The function `main()`. -/
def main (c : Code) (e : Env) (s : Machine) : Option Machine := do
  let (threads0, s) ← create_thread c.func1 e.t0 e.stack0 s
  let (threads1, s) ← create_thread c.func2 e.t1 e.stack1 s
  let (threads2, s) ← create_thread c.func1 e.t2 e.stack2 s
  let (threads3, s) ← create_thread c.func2 e.t3 e.stack3 s
  let s ← set_next threads0 threads1 s
  let s ← set_next threads1 threads2 s
  let s ← set_next threads2 threads3 s
  let s ← set_next threads3 threads0 s
  start_scheduler c e.scratch threads0 s

/-- The machine after `n` further transfers of control. -/
def run (c : Code) : Nat → Machine → Option Machine
  | 0, s => some s
  | n + 1, s => (run c n s).bind (resume c)

/-! ## Rings of descriptors and runs of the scheduler -/

/-- What `main.c` relies on when it calls `cswitch(old, new)`: a call that passes
control on has left `cur_thread` and the record of calls as they were and has written
no descriptor but `old`, of which it kept `next` and `stack_page`; and the call does
pass control on whenever `old` and `new` point to descriptors. -/
def Code.switch_ok (c : Code) : Prop :=
  (∀ ra old new s s2, c.cswitch ra old new s = some s2 →
    s2.cur_thread = s.cur_thread ∧ s2.switches = s.switches ∧
    (∀ p, p ≠ old → s2.heap p = s.heap p) ∧
    (s2.heap old).map thread_t.next = (s.heap old).map thread_t.next ∧
    (s2.heap old).map thread_t.stack_page = (s.heap old).map thread_t.stack_page) ∧
  (∀ ra old new s, deref s old ≠ none → deref s new ≠ none →
    c.cswitch ra old new s ≠ none)

/-- Work of a thread body between two calls of `scheduler`: it calls neither
`scheduler` nor `cswitch` and touches no `thread_t`. -/
def Local (f : Machine → Machine) : Prop :=
  ∀ s, (f s).heap = s.heap ∧ (f s).cur_thread = s.cur_thread ∧ (f s).switches = s.switches

/-- The first `n` calls of `scheduler()`; before its call number `k` the running
thread does the work `work k`. -/
def ticks (c : Code) (work : Nat → Machine → Machine) : Nat → Machine → Option Machine
  | 0, s => some s
  | n + 1, s => (ticks c work n s).bind fun s => scheduler c (work n s)

/-- The descriptors `T 0, ..., T (N-1)` exist, none is `NULL`, and they are wired
`T 0 → T 1 → ... → T (N-1) → T 0`. -/
def Linked (N : Nat) (T : Nat → Nat) (s : Machine) : Prop :=
  ∀ i, i < N → T i ≠ 0 ∧ (s.heap (T i)).map thread_t.next = some (T ((i + 1) % N))

/-- How often descriptor `p` was the running thread in the calls `cswitch(p, _)` of
the list. -/
def runs (p : Nat) (calls : List (Nat × Nat)) : Nat := (calls.map Prod.fst).count p

/-- How often descriptor `p` was switched to in the calls `cswitch(_, p)` of the list. -/
def dispatches (p : Nat) (calls : List (Nat × Nat)) : Nat := (calls.map Prod.snd).count p

/-- The descriptors listed in `ds` form a ring that holds `cur_thread`: each of them
exists, is not `NULL`, and its `next` is again one of them. -/
def WellFormed (ds : List Nat) (s : Machine) : Prop :=
  s.cur_thread ∈ ds ∧
  ∀ p ∈ ds, p ≠ 0 ∧ ∃ q ∈ ds, (s.heap p).map thread_t.next = some q

/-- The steps the program takes outside of `scheduler` and `start_scheduler`: a
thread body puts a word on its stack or prints its line, `main` creates a thread or
assigns a `next` field. -/
inductive Step where
  | push (v : Nat)
  | print (n : Nat)
  | create (entrypoint t stack : Nat)
  | link (p q : Nat)

/-- The effect of one step. -/
def Step.exec : Step → Machine → Option Machine
  | Step.push v, s => some (CSwitch.push v s)
  | Step.print n, s => some (print_local n s)
  | Step.create entrypoint t stack, s => (create_thread entrypoint t stack s).map Prod.snd
  | Step.link p q, s => set_next p q s

/-- The effect of a sequence of steps. -/
def exec : List Step → Machine → Option Machine
  | [], s => some s
  | a :: l, s => (a.exec s).bind (exec l)

/-- The machine `k` transfers of control after `start_scheduler(init)`. -/
def after (c : Code) (scratch init : Nat) (s : Machine) (k : Nat) : Option Machine :=
  (start_scheduler c scratch init s).bind (run c k)

/-- The machine `k` calls of `scheduler()` after `start_scheduler(init)`; before its
call number `j` the running thread does the work `work j`. -/
def turns (c : Code) (work : Nat → Machine → Machine) (scratch init : Nat) (s : Machine)
    (k : Nat) : Option Machine :=
  (start_scheduler c scratch init s).bind (ticks c work k)

/-- A ring of `N` threads: for each position the descriptor, its stack block and
whether the thread was created with `func2` (otherwise with `func1`). -/
structure Ring where
  N : Nat
  T : Nat → Nat
  B : Nat → Nat
  body : Nat → Bool

/-- Entrypoint of a thread body. -/
def entry (c : Code) (b : Bool) : Nat := if b then c.func2 else c.func1

/-- Return address of the call of `scheduler` in a thread body. -/
def ret_addr (c : Code) (b : Bool) : Nat := if b then c.func2_ret else c.func1_ret

/-- The value of `local_var` in a thread body. -/
def local_var (b : Bool) : Nat := if b then 0x2222 else 0x1111

/-- The number a thread body prints in its line. -/
def fn_number (b : Bool) : Nat := if b then 2 else 1

/-- The program is linked with the routine `cswitch` modelled above, and the code
addresses that control flow tells apart are different. -/
def Code.ok (c : Code) : Prop :=
  c.func1 ≠ c.func2 ∧ c.func1 ≠ c.scheduler_ret ∧ c.func2 ≠ c.scheduler_ret ∧
  c.func1_ret ≠ c.func2_ret ∧ c.cswitch = CSwitch.cswitch

/-- What `malloc` guarantees for the allocations of a ring: the descriptors are
distinct objects, none at `NULL`; the stack blocks lie in the address space and do
not overlap. -/
def Ring.ok (r : Ring) : Prop :=
  0 < r.N ∧
  (∀ i, i < r.N → r.T i ≠ 0) ∧
  (∀ i, i < r.N → ∀ j, j < r.N → r.T i = r.T j → i = j) ∧
  (∀ i, i < r.N → r.B i + 0x1000 ≤ 2 ^ 64) ∧
  (∀ i, i < r.N → ∀ j, j < r.N → i ≠ j → r.B i + 0x1000 ≤ r.B j ∨ r.B j + 0x1000 ≤ r.B i)

/-- The state after every thread of the ring was made by `create_thread` and the
`next` fields were assigned: each descriptor holds the initial `saved_sp`, its stack
block and its successor, and the `rip` slot of its initial frame holds its
entrypoint. -/
def Wired (c : Code) (r : Ring) (s : Machine) : Prop :=
  ∀ i, i < r.N →
    s.heap (r.T i) = some ⟨r.B i + 0xFB8, r.B i, r.T ((i + 1) % r.N)⟩ ∧
    s.mem (r.B i + 0xFE8) = entry c (r.body i)

/-- The caller of `start_scheduler`: `scratch` is an object of its own, and the
56 bytes below the stack pointer, where the first `cswitch` saves the registers,
belong to no stack block of the ring. -/
def Startable (r : Ring) (scratch : Nat) (s : Machine) : Prop :=
  scratch ≠ 0 ∧ (∀ i, i < r.N → r.T i ≠ scratch) ∧ 56 ≤ s.rsp ∧ s.rsp < 2 ^ 64 ∧
  ∀ i, i < r.N → s.rsp ≤ r.B i ∨ r.B i + 0x1000 ≤ s.rsp - 56

/-- The stack pointer of the machine lies in the stack block of ring position `i`. -/
def OnStack (r : Ring) (s : Machine) (i : Nat) : Prop :=
  r.B i ≤ s.rsp ∧ s.rsp < r.B i + 0x1000

/-- Ring position `i` is suspended: its `saved_sp` points at a `regs_t` that lies
inside its own stack block, and the return address saved there is the thread's
entrypoint or the return address of the `cswitch` call in `scheduler`. -/
def Suspended (c : Code) (r : Ring) (s : Machine) (i : Nat) : Prop :=
  ∃ o, s.heap (r.T i) = some o ∧ o.stack_page = r.B i ∧
    o.stack_page ≤ o.saved_sp ∧ o.saved_sp + sizeof_regs_t ≤ o.stack_page + 0x1000 ∧
    ((load_regs s.mem o.saved_sp).rip = entry c (r.body i) ∨
      (load_regs s.mem o.saved_sp).rip = c.scheduler_ret)

/-- The work `f` that the thread at ring position `j` does from state `s`, where it
was given control, up to its next call of `cswitch` keeps to the thread: it touches no
`thread_t`, neither `cur_thread` nor the record of calls, it writes no memory outside
the stack block of the thread, and it leaves the stack pointer inside that block, not
above the top `B + 0xFF0` that `create_thread` gave the stack and with room for the
`regs_t` that `cswitch` pushes.  Nothing is said about where in the block, or in which
registers, the thread keeps its state. -/
def Confined (r : Ring) (j : Nat) (f : Machine → Machine) (s : Machine) : Prop :=
  (f s).heap = s.heap ∧ (f s).cur_thread = s.cur_thread ∧ (f s).switches = s.switches ∧
  (∀ a, a < r.B j ∨ r.B j + 0x1000 ≤ a → (f s).mem a = s.mem a) ∧
  r.B j + 56 ≤ (f s).rsp ∧ (f s).rsp ≤ r.B j + 0xFF0

/-- The ring `main` builds from the addresses it is handed. -/
def Env.ring (e : Env) : Ring :=
  { N := 4,
    T := fun i => match i with
      | 0 => e.t0
      | 1 => e.t1
      | 2 => e.t2
      | _ => e.t3,
    B := fun i => match i with
      | 0 => e.stack0
      | 1 => e.stack1
      | 2 => e.stack2
      | _ => e.stack3,
    body := fun i => match i with
      | 0 => false
      | 1 => true
      | 2 => false
      | _ => true }

/-- The scenario of two threads: one made with `func1`, one with `func2`, linked into
a cycle of two, and the scheduler started on the first. -/
def two_threads (c : Code) (t0 stack0 t1 stack1 scratch : Nat) (s : Machine) :
    Option Machine := do
  let (a, s) ← create_thread c.func1 t0 stack0 s
  let (b, s) ← create_thread c.func2 t1 stack1 s
  let s ← set_next a b s
  let s ← set_next b a s
  start_scheduler c scratch a s

/-- The ring of the scenario of two threads. -/
def pair_ring (t0 stack0 t1 stack1 : Nat) : Ring :=
  { N := 2,
    T := fun i => match i with
      | 0 => t0
      | _ => t1,
    B := fun i => match i with
      | 0 => stack0
      | _ => stack1,
    body := fun i => match i with
      | 0 => false
      | _ => true }

/-! ## Auxiliary definitions of the proofs -/

/-- The state a call of the modelled `cswitch` produces, written out. -/
def switched (ra old new : Nat) (s : Machine) (o n : thread_t) : Machine :=
  let sp := sub64 s.rsp sizeof_regs_t
  let mem := store_regs s.mem sp ⟨s.rbx, s.rbp, s.r12, s.r13, s.r14, s.r15, ra⟩
  let sp2 := if new = old then sp else n.saved_sp
  let r := load_regs mem sp2
  { s with
    heap := fun x => if x = old then some { o with saved_sp := sp } else s.heap x,
    mem := mem,
    rsp := add64 sp2 sizeof_regs_t,
    rbx := r.rbx, rbp := r.rbp, r12 := r.r12, r13 := r.r13, r14 := r.r14, r15 := r.r15,
    rip := r.rip,
    switches := s.switches ++ [(old, new)] }

/-- The state of the machine when the routine `cswitch` is entered by a call made in
state `s`. -/
def entered (old new : Nat) (s : Machine) : Machine :=
  { s with switches := s.switches ++ [(old, new)] }

/-- The `saved_sp` that `create_thread` computes for a stack block. -/
def initial_sp (stack : Nat) : Nat := sub64 (add64 stack (0x1000 - 0x10)) sizeof_regs_t

/-- The state `create_thread` produces, written out. -/
def created (entrypoint t stack : Nat) (s : Machine) : Machine :=
  { s with
    heap := fun x => if x = t
      then some ⟨initial_sp stack, stack, 0⟩ else s.heap x,
    mem := store s.mem (add64 (initial_sp stack) offsetof_rip) entrypoint,
    stdout := s.stdout ++ [Line.created t entrypoint stack] }

/-- The state in which `main` calls `start_scheduler`, written out. -/
def main_threads (c : Code) (e : Env) (s : Machine) : Machine :=
  let s := created c.func1 e.t0 e.stack0 s
  let s := created c.func2 e.t1 e.stack1 s
  let s := created c.func1 e.t2 e.stack2 s
  let s := created c.func2 e.t3 e.stack3 s
  let s := put s e.t0 ⟨initial_sp e.stack0, e.stack0, e.t1⟩
  let s := put s e.t1 ⟨initial_sp e.stack1, e.stack1, e.t2⟩
  let s := put s e.t2 ⟨initial_sp e.stack2, e.stack2, e.t3⟩
  put s e.t3 ⟨initial_sp e.stack3, e.stack3, e.t0⟩

/-- The state in which the scenario of two threads calls `start_scheduler`. -/
def pair_threads (c : Code) (t0 stack0 t1 stack1 : Nat) (s : Machine) : Machine :=
  let s := created c.func1 t0 stack0 s
  let s := created c.func2 t1 stack1 s
  let s := put s t0 ⟨initial_sp stack0, stack0, t1⟩
  put s t1 ⟨initial_sp stack1, stack1, t0⟩

/-- Saved stack pointer of ring position `i` after `k` transfers of control: the
initial frame until the thread has run, the frame of its call of `cswitch` after. -/
def saved_sp_at (r : Ring) (k i : Nat) : Nat := r.B i + (if i < k then 0xFA8 else 0xFB8)

/-- The six callee-saved words at `a` in `m` are those at `a0` in `m0`. -/
def same_frame (m : Nat → Nat) (a : Nat) (m0 : Nat → Nat) (a0 : Nat) : Prop :=
  m a = m0 a0 ∧ m (a + 8) = m0 (a0 + 8) ∧ m (a + 16) = m0 (a0 + 16) ∧
  m (a + 24) = m0 (a0 + 24) ∧ m (a + 32) = m0 (a0 + 32) ∧ m (a + 40) = m0 (a0 + 40)

/-- The callee-saved registers hold the six words at `a0` in `m0`. -/
def regs_from (s : Machine) (m0 : Nat → Nat) (a0 : Nat) : Prop :=
  s.rbx = m0 a0 ∧ s.rbp = m0 (a0 + 8) ∧ s.r12 = m0 (a0 + 16) ∧
  s.r13 = m0 (a0 + 24) ∧ s.r14 = m0 (a0 + 32) ∧ s.r15 = m0 (a0 + 40)

/-- The lines the thread bodies print in the first `k` turns. -/
def printed (r : Ring) (k : Nat) : List Line :=
  (List.range k).map fun j =>
    Line.in_function (fn_number (r.body (j % r.N))) (local_var (r.body (j % r.N)))

/-- The calls of `cswitch` made by the first `k` calls of `scheduler`. -/
def switched_pairs (r : Ring) (k : Nat) : List (Nat × Nat) :=
  (List.range k).map fun j => (r.T (j % r.N), r.T ((j + 1) % r.N))

/-- The invariant of the machine `k` transfers of control after `start_scheduler`
was called in state `s0`. -/
structure Inv (c : Code) (r : Ring) (scratch : Nat) (s0 : Machine) (k : Nat) (s : Machine) :
    Prop where
  cur : s.cur_thread = r.T (k % r.N)
  heap : ∀ i, i < r.N →
    s.heap (r.T i) = some ⟨saved_sp_at r k i, r.B i, r.T ((i + 1) % r.N)⟩
  yielded : ∀ i, i < r.N → i < k →
    s.mem (r.B i + 0xFE8) = local_var (r.body i) ∧
    s.mem (r.B i + 0xFE0) = ret_addr c (r.body i) ∧
    s.mem (r.B i + 0xFD8) = c.scheduler_ret ∧
    same_frame s.mem (r.B i + 0xFA8) s0.mem (r.B i + 0xFB8)
  fresh : ∀ i, i < r.N → k ≤ i →
    s.mem (r.B i + 0xFE8) = entry c (r.body i) ∧
    same_frame s.mem (r.B i + 0xFB8) s0.mem (r.B i + 0xFB8)
  rsp : s.rsp = saved_sp_at r k (k % r.N) + 56
  rip : s.rip = if k < r.N then entry c (r.body k) else c.scheduler_ret
  regs : regs_from s s0.mem (r.B (k % r.N) + 0xFB8)
  stdout : s.stdout = s0.stdout ++ printed r k
  switches : s.switches = s0.switches ++ (scratch, r.T 0) :: switched_pairs r k

/-- The invariant of a run in which the threads keep to their stacks, after `k` calls
of `scheduler()`: the thread at position `k % N` has just been given control, with the
stack pointer and the registers loaded from the frame its `saved_sp` points to, and
every descriptor points to a frame inside its own stack block. -/
structure Given (r : Ring) (k : Nat) (s : Machine) : Prop where
  cur : s.cur_thread = r.T (k % r.N)
  heap : ∀ j, j < r.N → ∃ sp, s.heap (r.T j) = some ⟨sp, r.B j, r.T ((j + 1) % r.N)⟩ ∧
    r.B j ≤ sp ∧ sp + 56 ≤ r.B j + 0xFF0
  loaded : ∃ n, s.heap (r.T (k % r.N)) = some n ∧
    s.rsp = add64 n.saved_sp sizeof_regs_t ∧
    s.rbx = (load_regs s.mem n.saved_sp).rbx ∧ s.rbp = (load_regs s.mem n.saved_sp).rbp ∧
    s.r12 = (load_regs s.mem n.saved_sp).r12 ∧ s.r13 = (load_regs s.mem n.saved_sp).r13 ∧
    s.r14 = (load_regs s.mem n.saved_sp).r14 ∧ s.r15 = (load_regs s.mem n.saved_sp).r15 ∧
    s.rip = (load_regs s.mem n.saved_sp).rip

/-- The state of a thread of stack block `B` at its call of `scheduler()`: `local_var`
and the return address of the call are on its stack and the line is printed. -/
def at_call (s : Machine) (B lv ra n rip : Nat) : Machine :=
  { s with
    rsp := B + 0xFE0,
    mem := store (store s.mem (B + 0xFE8) lv) (B + 0xFE0) ra,
    rip := rip,
    stdout := s.stdout ++ [Line.in_function n lv] }

/-- Stack memory of block `B` after its thread has yielded. -/
def yielded_mem (m : Nat → Nat) (B lv ra : Nat) (f : regs_t) : Nat → Nat :=
  store_regs (store (store m (B + 0xFE8) lv) (B + 0xFE0) ra) (B + 0xFA8) f

/-- The state after the thread at ring position `k % N` has yielded. -/
def after_yield (c : Code) (r : Ring) (k : Nat) (s : Machine) : Machine :=
  let i := k % r.N
  let i2 := (k + 1) % r.N
  let m := yielded_mem s.mem (r.B i) (local_var (r.body i)) (ret_addr c (r.body i))
    ⟨s.rbx, s.rbp, s.r12, s.r13, s.r14, s.r15, c.scheduler_ret⟩
  let sp2 := saved_sp_at r (k + 1) i2
  { heap := fun x => if x = r.T i then some ⟨r.B i + 0xFA8, r.B i, r.T i2⟩ else s.heap x,
    mem := m,
    cur_thread := r.T i2,
    rsp := sp2 + 56,
    rbx := m sp2, rbp := m (sp2 + 8), r12 := m (sp2 + 16), r13 := m (sp2 + 24),
    r14 := m (sp2 + 32), r15 := m (sp2 + 40), rip := m (sp2 + 48),
    stdout := s.stdout ++
      [Line.in_function (fn_number (r.body i)) (local_var (r.body i))],
    switches := s.switches ++ [(r.T i, r.T i2)] }

/-- The machine after `k` transfers of control, written out. -/
def state_at (c : Code) (r : Ring) : Nat → Machine → Machine
  | 0, s => s
  | k + 1, s => after_yield c r k (state_at c r k s)

/-! ## Concrete inputs -/

/-- Code addresses of an example program image. -/
def demo_code : Code :=
  { func1 := 0x401136, func2 := 0x401170, func1_ret := 0x401160, func2_ret := 0x40119a,
    scheduler_ret := 0x401130, start_ret := 0x4011e0, cswitch := cswitch }

/-- Allocation results of an example run of `main`. -/
def demo_env : Env :=
  { t0 := 0x10000, stack0 := 0x20000, t1 := 0x10020, stack1 := 0x21000,
    t2 := 0x10040, stack2 := 0x22000, t3 := 0x10060, stack3 := 0x23000,
    scratch := 0x7FE0 }

/-- The machine at the start of an example run: no descriptors yet, the stack
pointer on the startup stack. -/
def demo_boot : Machine :=
  { heap := fun _ => none, mem := fun a => 3 * a + 1, cur_thread := 0, rsp := 0x7FD0,
    rbx := 11, rbp := 12, r12 := 13, r13 := 14, r14 := 15, r15 := 16, rip := 0,
    stdout := [], switches := [] }

/-- The example run at the call of `start_scheduler`. -/
def demo_wired : Machine := main_threads demo_code demo_env demo_boot

/-- The example run after `start_scheduler` has set `cur_thread`. -/
def demo_started : Machine := { demo_wired with cur_thread := 0x10000 }

/-- The example run right after `start_scheduler` has transferred control to the
first thread. -/
def demo_running : Machine :=
  (start_scheduler demo_code demo_env.scratch 0x10000 demo_wired).getD demo_boot

/-- Steps of an example thread that never calls `scheduler()`. -/
def demo_steps : List Step :=
  [Step.push 0x1111, Step.print 1, Step.print 1, Step.push 7, Step.print 1]

/-- Work of an example thread body: in turn `k` it stores `k` in the word at its
stack pointer and in the register `r12`. -/
def demo_work (k : Nat) (s : Machine) : Machine :=
  { s with mem := store s.mem s.rsp k, r12 := k }

/-! ## Lemmas -/

/-! ### The code of `main.c`, for every routine `cswitch` that meets its contract -/

theorem succ_mod_mod (j N : Nat) : (j % N + 1) % N = (j + 1) % N := by
  simp [Nat.add_mod]

/-- What a call of `cswitch` in `main.c` that passes control on has done. -/
theorem call_cswitch_some (c : Code) (hk : c.switch_ok) (ra old new : Nat) (s s2 : Machine)
    (h : call_cswitch c ra old new s = some s2) :
    s2.cur_thread = s.cur_thread ∧ s2.switches = s.switches ++ [(old, new)] ∧
    (∀ p, p ≠ old → s2.heap p = s.heap p) ∧
    (s2.heap old).map thread_t.next = (s.heap old).map thread_t.next ∧
    (s2.heap old).map thread_t.stack_page = (s.heap old).map thread_t.stack_page :=
  hk.1 ra old new (entered old new s) s2 h

/-- A call of `cswitch` in `main.c` on two descriptors passes control on. -/
theorem call_cswitch_ok (c : Code) (hk : c.switch_ok) (ra old new : Nat) (s : Machine)
    (h1 : deref s old ≠ none) (h2 : deref s new ≠ none) :
    ∃ s2, call_cswitch c ra old new s = some s2 :=
  Option.ne_none_iff_exists'.1 (hk.2 ra old new (entered old new s) h1 h2)

theorem deref_some (s : Machine) (p : Nat) (o : thread_t) (hp : p ≠ 0)
    (h : s.heap p = some o) : deref s p = some o := by
  simp [deref, hp, h]

/-- What a call of `scheduler()` does to the descriptors. -/
theorem scheduler_step (c : Code) (hk : c.switch_ok) (s : Machine) (o n : thread_t)
    (hp : s.cur_thread ≠ 0) (hq : o.next ≠ 0)
    (h1 : s.heap s.cur_thread = some o) (h2 : s.heap o.next = some n) :
    ∃ s2, scheduler c s = some s2 ∧ s2.cur_thread = o.next ∧
      s2.switches = s.switches ++ [(s.cur_thread, o.next)] ∧
      (∀ p, p ≠ s.cur_thread → s2.heap p = s.heap p) ∧
      (s2.heap s.cur_thread).map thread_t.next = some o.next ∧
      (s2.heap s.cur_thread).map thread_t.stack_page = some o.stack_page := by
  have e : scheduler c s =
      call_cswitch c c.scheduler_ret s.cur_thread o.next { s with cur_thread := o.next } := by
    simp [scheduler, deref_some s _ o hp h1, bind, Option.bind]
  obtain ⟨s2, e2⟩ := call_cswitch_ok c hk c.scheduler_ret s.cur_thread o.next
    { s with cur_thread := o.next }
    (by simp [deref, hp, h1]) (by simp [deref, hq, h2])
  obtain ⟨g1, g2, g3, g4, g5⟩ := call_cswitch_some c hk _ _ _ _ _ e2
  refine ⟨s2, by rw [e, e2], g1, g2, g3, ?_, ?_⟩
  · rw [g4]
    show (s.heap s.cur_thread).map thread_t.next = _
    rw [h1]
    rfl
  · rw [g5]
    show (s.heap s.cur_thread).map thread_t.stack_page = _
    rw [h1]
    rfl

theorem linked_get (N : Nat) (T : Nat → Nat) (s : Machine) (hl : Linked N T s) (i : Nat)
    (hi : i < N) : T i ≠ 0 ∧ ∃ o, s.heap (T i) = some o ∧ o.next = T ((i + 1) % N) := by
  obtain ⟨h0, h⟩ := hl i hi
  exact ⟨h0, Option.map_eq_some'.1 h⟩

theorem scheduler_linked (c : Code) (hk : c.switch_ok) (N : Nat) (T : Nat → Nat)
    (s : Machine) (j : Nat)
    (hN : 0 < N) (hl : Linked N T s) (hc : s.cur_thread = T (j % N)) :
    ∃ s2, scheduler c s = some s2 ∧ Linked N T s2 ∧ s2.cur_thread = T ((j + 1) % N) ∧
      s2.switches = s.switches ++ [(T (j % N), T ((j + 1) % N))] ∧
      (∀ p, p ≠ T (j % N) → s2.heap p = s.heap p) := by
  obtain ⟨h0, o, ho, hnext⟩ := linked_get N T s hl (j % N) (Nat.mod_lt _ hN)
  rw [succ_mod_mod] at hnext
  obtain ⟨h0n, n, hn, -⟩ := linked_get N T s hl ((j + 1) % N) (Nat.mod_lt _ hN)
  rw [← hc] at ho h0
  rw [← hnext] at hn h0n
  obtain ⟨s2, e, h1, h2, h3, h4, -⟩ := scheduler_step c hk s o n h0 h0n ho hn
  refine ⟨s2, e, ?_, by rw [h1, hnext], by rw [h2, hc, hnext], ?_⟩
  · intro i hi
    obtain ⟨hi0, hin⟩ := hl i hi
    refine ⟨hi0, ?_⟩
    by_cases hx : T i = s.cur_thread
    · rw [hx, ho] at hin
      rw [hx, h4]
      exact hin
    · rw [h3 _ hx]
      exact hin
  · intro p hp
    rw [← hc] at hp
    exact h3 p hp

theorem ticks_linked (c : Code) (hk : c.switch_ok) (N : Nat) (T : Nat → Nat) (hN : 0 < N)
    (work : Nat → Machine → Machine) (hw : ∀ k, Local (work k))
    (s : Machine) (j : Nat) (hl : Linked N T s) (hc : s.cur_thread = T (j % N)) (M : Nat) :
    ∃ s2, ticks c work M s = some s2 ∧ Linked N T s2 ∧ s2.cur_thread = T ((j + M) % N) ∧
      s2.switches = s.switches ++
        (List.range M).map (fun k => (T ((j + k) % N), T ((j + k + 1) % N))) ∧
      (∀ p, (∀ i, i < N → p ≠ T i) → s2.heap p = s.heap p) := by
  induction M with
  | zero => exact ⟨s, rfl, hl, by simpa using hc, by simp, fun _ _ => rfl⟩
  | succ M ih =>
    obtain ⟨s1, e1, hl1, hc1, hsw1, hh1⟩ := ih
    obtain ⟨hh, hcur, hsw⟩ := hw M s1
    have hl2 : Linked N T (work M s1) := by
      intro i hi
      rw [hh]
      exact hl1 i hi
    obtain ⟨s2, e2, hl3, hc3, hsw3, hh3⟩ :=
      scheduler_linked c hk N T (work M s1) (j + M) hN hl2 (by rw [hcur, hc1])
    refine ⟨s2, by simp [ticks, e1, e2], hl3, by rw [hc3, Nat.add_assoc], ?_, ?_⟩
    · rw [hsw3, hsw, hsw1, List.range_succ, List.map_append, List.append_assoc]
      rfl
    · intro p hp
      rw [hh3 p (hp _ (Nat.mod_lt _ hN)), hh, hh1 p hp]

theorem start_linked (c : Code) (hk : c.switch_ok) (N : Nat) (T : Nat → Nat) (s : Machine)
    (scratch i0 : Nat)
    (hl : Linked N T s) (hi : i0 < N) (h0 : scratch ≠ 0) (hs : ∀ i, i < N → T i ≠ scratch) :
    ∃ s1, start_scheduler c scratch (T i0) s = some s1 ∧ Linked N T s1 ∧
      s1.cur_thread = T i0 ∧ s1.switches = s.switches ++ [(scratch, T i0)] ∧
      (∀ p, p ≠ scratch → s1.heap p = s.heap p) := by
  obtain ⟨hT0, n, hn, -⟩ := linked_get N T s hl i0 hi
  have hne := hs i0 hi
  obtain ⟨s1, e1⟩ := call_cswitch_ok c hk c.start_ret scratch (T i0)
    { new_thread scratch s with cur_thread := T i0 }
    (by simp [deref, new_thread, h0, put]) (by simp [deref, new_thread, h0, put, hne, hn, hT0])
  obtain ⟨g1, g2, g3, -, -⟩ := call_cswitch_some c hk _ _ _ _ _ e1
  have hheap : ∀ p, p ≠ scratch → s1.heap p = s.heap p := by
    intro p hp
    rw [g3 p hp]
    simp [new_thread, h0, put, hp]
  refine ⟨s1, e1, ?_, g1, ?_, hheap⟩
  · intro i hi2
    rw [hheap _ (hs i hi2)]
    exact hl i hi2
  · rw [g2]
    simp [new_thread, h0, put]

/-- What any call of `scheduler()` that passes control on does to `cur_thread` and to
the list of switches. -/
theorem scheduler_some (c : Code) (hk : c.switch_ok) (s s2 : Machine)
    (h : scheduler c s = some s2) :
    s2.switches = s.switches ++ [(s.cur_thread, s2.cur_thread)] := by
  simp only [scheduler, bind, Option.bind_eq_some] at h
  obtain ⟨o, ho, o2, ho2, h⟩ := h
  rw [ho] at ho2
  cases ho2
  obtain ⟨h1, h2, -⟩ := call_cswitch_some c hk _ _ _ _ _ h
  rw [h2, h1]

theorem func1_loop_some (c : Code) (hk : c.switch_ok) (s s2 : Machine)
    (h : func1_loop c s = some s2) :
    s2.switches = s.switches ++ [(s.cur_thread, s2.cur_thread)] :=
  scheduler_some c hk (push c.func1_ret (print_local 1 s)) s2 h

theorem func2_loop_some (c : Code) (hk : c.switch_ok) (s s2 : Machine)
    (h : func2_loop c s = some s2) :
    s2.switches = s.switches ++ [(s.cur_thread, s2.cur_thread)] :=
  scheduler_some c hk (push c.func2_ret (print_local 2 s)) s2 h

theorem resume_some (c : Code) (hk : c.switch_ok) (s s2 : Machine)
    (h : resume c s = some s2) :
    s2.switches = s.switches ++ [(s.cur_thread, s2.cur_thread)] := by
  unfold resume at h
  split at h
  · exact func1_loop_some c hk (push 0x1111 s) s2 h
  · split at h
    · exact func2_loop_some c hk (push 0x2222 s) s2 h
    · split at h
      · unfold scheduler_return at h
        simp only [] at h
        split at h
        · exact func1_loop_some c hk { s with rsp := add64 s.rsp 8, rip := s.mem s.rsp } s2 h
        · split at h
          · exact func2_loop_some c hk { s with rsp := add64 s.rsp 8, rip := s.mem s.rsp }
              s2 h
          · exact absurd h (by simp)
      · exact absurd h (by simp)

theorem scheduler_wf (c : Code) (hk : c.switch_ok) (ds : List Nat) (s : Machine)
    (hwf : WellFormed ds s) :
    ∃ s1, scheduler c s = some s1 ∧ WellFormed ds s1 ∧
      (∀ p, (s1.heap p).map thread_t.next = (s.heap p).map thread_t.next ∧
        (s1.heap p).map thread_t.stack_page = (s.heap p).map thread_t.stack_page) ∧
      (∀ p, p ≠ s.cur_thread → s1.heap p = s.heap p) ∧
      (s1.heap s.cur_thread).map thread_t.next = some s1.cur_thread := by
  obtain ⟨hcur, hall⟩ := hwf
  obtain ⟨h0, q, hq, hmap⟩ := hall _ hcur
  obtain ⟨o, ho, rfl⟩ := Option.map_eq_some'.1 hmap
  obtain ⟨hq0, q2, -, hmap2⟩ := hall _ hq
  obtain ⟨n, hn, -⟩ := Option.map_eq_some'.1 hmap2
  obtain ⟨s1, e, h1, -, h3, h4, h5⟩ := scheduler_step c hk s o n h0 hq0 ho hn
  have hmaps : ∀ p, (s1.heap p).map thread_t.next = (s.heap p).map thread_t.next ∧
      (s1.heap p).map thread_t.stack_page = (s.heap p).map thread_t.stack_page := by
    intro p
    by_cases hp : p = s.cur_thread
    · subst hp
      rw [h4, h5, ho]
      exact ⟨rfl, rfl⟩
    · rw [h3 p hp]
      exact ⟨rfl, rfl⟩
  refine ⟨s1, e, ⟨by rw [h1]; exact hq, ?_⟩, hmaps, h3, by rw [h4, h1]⟩
  intro p hp
  obtain ⟨hp0, q3, hq3, hm3⟩ := hall p hp
  exact ⟨hp0, q3, hq3, by rw [(hmaps p).1]; exact hm3⟩

theorem ticks_wf (c : Code) (hk : c.switch_ok) (ds : List Nat)
    (work : Nat → Machine → Machine)
    (hw : ∀ k, Local (work k)) (s : Machine) (hwf : WellFormed ds s) (M : Nat) :
    ∃ s2, ticks c work M s = some s2 ∧ WellFormed ds s2 ∧
      (∀ p, (s2.heap p).map thread_t.next = (s.heap p).map thread_t.next ∧
        (s2.heap p).map thread_t.stack_page = (s.heap p).map thread_t.stack_page) ∧
      (∀ p, p ∉ ds → s2.heap p = s.heap p) := by
  induction M with
  | zero => exact ⟨s, rfl, hwf, fun _ => ⟨rfl, rfl⟩, fun _ _ => rfl⟩
  | succ M ih =>
    obtain ⟨s1, e1, hwf1, hm1, hout1⟩ := ih
    obtain ⟨hh, hcur, -⟩ := hw M s1
    have hwf2 : WellFormed ds (work M s1) := by
      unfold WellFormed
      rw [hh, hcur]
      exact hwf1
    obtain ⟨s2, e2, hwf3, hm3, hne3, -⟩ := scheduler_wf c hk ds (work M s1) hwf2
    refine ⟨s2, by simp [ticks, e1, e2], hwf3, ?_, ?_⟩
    · intro p
      rw [(hm3 p).1, (hm3 p).2, hh]
      exact hm1 p
    · intro p hp
      have : p ≠ (work M s1).cur_thread := by
        intro h
        rw [h] at hp
        exact hp hwf2.1
      rw [hne3 p this, hh, hout1 p hp]

theorem succ_div_mod (N M : Nat) (hN : 0 < N) :
    (M % N + 1 < N ∧ (M + 1) / N = M / N ∧ (M + 1) % N = M % N + 1) ∨
    (M % N + 1 = N ∧ (M + 1) / N = M / N + 1 ∧ (M + 1) % N = 0) := by
  have h1 := Nat.div_add_mod M N
  have h2 := Nat.mod_lt M hN
  rcases Nat.lt_or_ge (M % N + 1) N with h | h
  · left
    refine ⟨h, ?_⟩
    apply (Nat.div_mod_unique hN).2
    constructor
    · omega
    · exact h
  · right
    have h3 : M % N + 1 = N := by omega
    refine ⟨h3, ?_⟩
    apply (Nat.div_mod_unique hN).2
    constructor
    · rw [Nat.mul_add]; omega
    · exact hN

theorem runs_ring (N : Nat) (T : Nat → Nat) (hN : 0 < N)
    (hinj : ∀ i, i < N → ∀ j, j < N → T i = T j → i = j) (i : Nat) (hi : i < N) (M : Nat) :
    runs (T i) ((List.range M).map fun k => (T (k % N), T ((k + 1) % N))) =
      M / N + if i < M % N then 1 else 0 := by
  induction M with
  | zero => simp [runs]
  | succ M ih =>
    have hstep : runs (T i) ((List.range (M + 1)).map fun k => (T (k % N), T ((k + 1) % N))) =
        runs (T i) ((List.range M).map fun k => (T (k % N), T ((k + 1) % N))) +
          if M % N = i then 1 else 0 := by
      unfold runs
      rw [List.range_succ, List.map_append, List.map_append, List.count_append]
      congr 1
      by_cases h : M % N = i
      · simp [h]
      · have : ¬ T (M % N) = T i := fun hh => h (hinj _ (Nat.mod_lt _ hN) _ hi hh)
        simp [h, List.count_singleton, this]
    rw [hstep, ih]
    rcases succ_div_mod N M hN with ⟨h1, h2, h3⟩ | ⟨h1, h2, h3⟩
    · rw [h2, h3]
      split_ifs <;> omega
    · rw [h2, h3]
      split_ifs <;> omega

theorem dispatches_ring (N : Nat) (T : Nat → Nat) (hN : 0 < N)
    (hinj : ∀ i, i < N → ∀ j, j < N → T i = T j → i = j) (i : Nat) (hi : i < N) (M : Nat) :
    dispatches (T i) ((List.range M).map fun k => (T (k % N), T ((k + 1) % N))) +
        (if i = 0 then 1 else 0) =
      (M + 1) / N + if i < (M + 1) % N then 1 else 0 := by
  rw [← runs_ring N T hN hinj i hi (M + 1)]
  unfold runs dispatches
  rw [List.range_succ_eq_map]
  simp only [List.map_cons, List.map_map, List.count_cons]
  have e : (Prod.snd ∘ fun k => (T (k % N), T ((k + 1) % N))) =
      (Prod.fst ∘ (fun k => (T (k % N), T ((k + 1) % N))) ∘ Nat.succ) := by
    funext k
    rfl
  rw [e]
  by_cases hz : i = 0
  · simp [hz]
  · have : ¬ T 0 = T i := fun h => hz (hinj 0 hN i hi h).symm
    simp [hz, this]

/-- The number of dispatches of a ring position among `M` calls is the floor or the
ceiling of `M / N`. -/
theorem dispatches_floor_ceil (N : Nat) (T : Nat → Nat) (hN : 0 < N)
    (hinj : ∀ i, i < N → ∀ j, j < N → T i = T j → i = j) (i : Nat) (hi : i < N) (M : Nat) :
    (dispatches (T i) ((List.range M).map fun k => (T (k % N), T ((k + 1) % N))) = M / N ∧
      (i = 0 ∨ M % N < i)) ∨
    (dispatches (T i) ((List.range M).map fun k => (T (k % N), T ((k + 1) % N))) = M / N + 1 ∧
      0 < i ∧ i ≤ M % N) := by
  have h := dispatches_ring N T hN hinj i hi M
  have hlt := Nat.mod_lt M hN
  rcases succ_div_mod N M hN with ⟨h1, h2, h3⟩ | ⟨h1, h2, h3⟩
  · rw [h2, h3] at h
    split_ifs at h <;> omega
  · rw [h2, h3] at h
    split_ifs at h <;> omega

theorem ceil_div (N M : Nat) (hN : 0 < N) (h : 0 < M % N) : (M + N - 1) / N = M / N + 1 := by
  have h1 := Nat.div_add_mod M N
  have h2 := Nat.mod_lt M hN
  have : (M + N - 1) / N = M / N + 1 ∧ (M + N - 1) % N = M % N - 1 := by
    apply (Nat.div_mod_unique hN).2
    constructor
    · rw [Nat.mul_add]; omega
    · omega
  exact this.1

/-! ### The program linked with the modelled `cswitch` -/

theorem cswitch_eq (ra old new : Nat) (s : Machine) (o n : thread_t)
    (ho : old ≠ 0) (hn : new ≠ 0) (h1 : s.heap old = some o) (h2 : s.heap new = some n) :
    cswitch ra old new (entered old new s) = some (switched ra old new s o n) := by
  by_cases h : new = old
  · subst h
    simp [cswitch, entered, switched, set_saved_sp, deref, put, ho, h1, bind, Option.bind]
  · simp [cswitch, entered, switched, set_saved_sp, deref, put, ho, hn, h1, h2, h, bind,
      Option.bind]

theorem call_cswitch_eq (c : Code) (hc : c.cswitch = cswitch) (ra old new : Nat)
    (s : Machine) (o n : thread_t)
    (ho : old ≠ 0) (hn : new ≠ 0) (h1 : s.heap old = some o) (h2 : s.heap new = some n) :
    call_cswitch c ra old new s = some (switched ra old new s o n) := by
  unfold call_cswitch
  rw [hc]
  exact cswitch_eq ra old new s o n ho hn h1 h2

theorem scheduler_eq (c : Code) (hc : c.cswitch = cswitch) (s : Machine) (o n : thread_t)
    (hp : s.cur_thread ≠ 0) (hq : o.next ≠ 0)
    (h1 : s.heap s.cur_thread = some o) (h2 : s.heap o.next = some n) :
    scheduler c s = some (switched c.scheduler_ret s.cur_thread o.next
      { s with cur_thread := o.next } o n) := by
  have h := call_cswitch_eq c hc c.scheduler_ret s.cur_thread o.next
    { s with cur_thread := o.next } o n hp hq h1 h2
  simp [scheduler, deref, hp, h1, bind, Option.bind, h]

theorem add64_eq (a b : Nat) (h : a + b < 2 ^ 64) : add64 a b = a + b :=
  Nat.mod_eq_of_lt h

theorem sub64_eq (a b : Nat) (h : b ≤ a) (ha : a < 2 ^ 64) : sub64 a b = a - b := by
  unfold sub64
  have hb : b % 2 ^ 64 = b := Nat.mod_eq_of_lt (by omega)
  rw [hb]
  omega

theorem store_regs_eq (m : Nat → Nat) (a : Nat) (r : regs_t) (h : a + 56 ≤ 2 ^ 64) (x : Nat) :
    store_regs m a r x =
      if x = a then r.rbx else if x = a + 8 then r.rbp else if x = a + 16 then r.r12
      else if x = a + 24 then r.r13 else if x = a + 32 then r.r14
      else if x = a + 40 then r.r15 else if x = a + 48 then r.rip else m x := by
  have e0 : add64 a 0 = a := add64_eq _ _ (by omega)
  have e1 : add64 a 8 = a + 8 := add64_eq _ _ (by omega)
  have e2 : add64 a 16 = a + 16 := add64_eq _ _ (by omega)
  have e3 : add64 a 24 = a + 24 := add64_eq _ _ (by omega)
  have e4 : add64 a 32 = a + 32 := add64_eq _ _ (by omega)
  have e5 : add64 a 40 = a + 40 := add64_eq _ _ (by omega)
  have e6 : add64 a 48 = a + 48 := add64_eq _ _ (by omega)
  simp only [store_regs, store, e0, e1, e2, e3, e4, e5, e6]

theorem load_regs_eq (m : Nat → Nat) (a : Nat) (h : a + 56 ≤ 2 ^ 64) :
    load_regs m a = ⟨m a, m (a + 8), m (a + 16), m (a + 24), m (a + 32), m (a + 40),
      m (a + 48)⟩ := by
  have e0 : add64 a 0 = a := add64_eq _ _ (by omega)
  have e1 : add64 a 8 = a + 8 := add64_eq _ _ (by omega)
  have e2 : add64 a 16 = a + 16 := add64_eq _ _ (by omega)
  have e3 : add64 a 24 = a + 24 := add64_eq _ _ (by omega)
  have e4 : add64 a 32 = a + 32 := add64_eq _ _ (by omega)
  have e5 : add64 a 40 = a + 40 := add64_eq _ _ (by omega)
  have e6 : add64 a 48 = a + 48 := add64_eq _ _ (by omega)
  simp only [load_regs, e0, e1, e2, e3, e4, e5, e6]

theorem yielded_mem_frame (m : Nat → Nat) (B lv ra : Nat) (f : regs_t)
    (hB : B + 0x1000 ≤ 2 ^ 64) (x : Nat) (hx : x < B + 0xFA8 ∨ B + 0xFF0 ≤ x) :
    yielded_mem m B lv ra f x = m x := by
  unfold yielded_mem
  rw [store_regs_eq _ _ _ (by omega)]
  unfold store
  repeat (rw [if_neg (by omega)])

theorem yielded_mem_at (m : Nat → Nat) (B lv ra : Nat) (f : regs_t)
    (hB : B + 0x1000 ≤ 2 ^ 64) :
    yielded_mem m B lv ra f (B + 0xFE8) = lv ∧
    yielded_mem m B lv ra f (B + 0xFE0) = ra ∧
    yielded_mem m B lv ra f (B + 0xFD8) = f.rip ∧
    yielded_mem m B lv ra f (B + 0xFA8) = f.rbx ∧
    yielded_mem m B lv ra f (B + 0xFA8 + 8) = f.rbp ∧
    yielded_mem m B lv ra f (B + 0xFA8 + 16) = f.r12 ∧
    yielded_mem m B lv ra f (B + 0xFA8 + 24) = f.r13 ∧
    yielded_mem m B lv ra f (B + 0xFA8 + 32) = f.r14 ∧
    yielded_mem m B lv ra f (B + 0xFA8 + 40) = f.r15 := by
  unfold yielded_mem
  simp only [store_regs_eq _ _ _ (show B + 0xFA8 + 56 ≤ 2 ^ 64 by omega), store]
  refine ⟨?_, ?_, ?_, ?_, ?_, ?_, ?_, ?_, ?_⟩ <;> simp

theorem saved_sp_at_succ (r : Ring) (k j : Nat) (hj : j < r.N)
    (hne : j ≠ k % r.N) : saved_sp_at r (k + 1) j = saved_sp_at r k j := by
  unfold saved_sp_at
  have h1 : j < k + 1 ↔ j < k := by
    constructor
    · intro h
      rcases Nat.lt_or_ge j k with h2 | h2
      · exact h2
      · have : j = k := by omega
        subst this
        exact absurd (Nat.mod_eq_of_lt hj).symm hne
    · intro h; omega
  simp only [h1]

theorem saved_sp_at_self (r : Ring) (k : Nat) :
    saved_sp_at r (k + 1) (k % r.N) = r.B (k % r.N) + 0xFA8 := by
  unfold saved_sp_at
  have : k % r.N < k + 1 := Nat.lt_succ_of_le (Nat.mod_le _ _)
  simp [this]


theorem saved_sp_at_fits (r : Ring) (k j : Nat) (h : r.B j + 0x1000 ≤ 2 ^ 64) :
    saved_sp_at r k j + 56 ≤ 2 ^ 64 ∧ saved_sp_at r k j + 56 < 2 ^ 64 := by
  unfold saved_sp_at
  split <;> omega

theorem yield_eq (c : Code) (r : Ring) (scratch : Nat) (s0 : Machine) (k : Nat) (s : Machine)
    (hc : c.cswitch = cswitch) (hr : Ring.ok r) (h : Inv c r scratch s0 k s) (rip : Nat) :
    scheduler c (at_call s (r.B (k % r.N)) (local_var (r.body (k % r.N)))
        (ret_addr c (r.body (k % r.N))) (fn_number (r.body (k % r.N))) rip) =
      some (after_yield c r k s) := by
  obtain ⟨hN, hT0, hinj, hfit, hdisj⟩ := hr
  have hi : k % r.N < r.N := Nat.mod_lt _ hN
  have hi2 : (k + 1) % r.N < r.N := Nat.mod_lt _ hN
  have hB := hfit _ hi
  have ho := h.heap _ hi
  have hn := h.heap _ hi2
  rw [succ_mod_mod] at ho
  have hsp : sub64 (r.B (k % r.N) + 0xFE0) 56 = r.B (k % r.N) + 0xFA8 := by
    rw [sub64_eq _ _ (by omega) (by omega)]
    omega
  have hcur := h.cur
  let p := at_call s (r.B (k % r.N)) (local_var (r.body (k % r.N)))
        (ret_addr c (r.body (k % r.N))) (fn_number (r.body (k % r.N))) rip
  have e := scheduler_eq c hc p
    ⟨saved_sp_at r k (k % r.N), r.B (k % r.N), r.T ((k + 1) % r.N)⟩
    ⟨saved_sp_at r k ((k + 1) % r.N), r.B ((k + 1) % r.N), r.T (((k + 1) % r.N + 1) % r.N)⟩
    (by show s.cur_thread ≠ 0; rw [hcur]; exact hT0 _ hi)
    (hT0 _ hi2) (by show s.heap s.cur_thread = some _; rw [hcur]; exact ho) hn
  rw [e]
  -- the resumed stack pointer
  have hsp2 : (if r.T ((k + 1) % r.N) = r.T (k % r.N) then r.B (k % r.N) + 0xFA8
      else saved_sp_at r k ((k + 1) % r.N)) = saved_sp_at r (k + 1) ((k + 1) % r.N) := by
    by_cases hx : (k + 1) % r.N = k % r.N
    · rw [hx, if_pos rfl, saved_sp_at_self]
    · rw [if_neg (fun hh => hx (hinj _ hi2 _ hi hh)), saved_sp_at_succ r k _ hi2 hx]
  have hf := (saved_sp_at_fits r (k + 1) _ (hfit _ hi2)).1
  simp only [switched, p, at_call, after_yield, hcur, sizeof_regs_t, Nat.reduceMul, hsp, hsp2,
    yielded_mem, load_regs_eq _ _ hf,
    add64_eq _ _ (saved_sp_at_fits r (k + 1) _ (hfit _ hi2)).2]

theorem lt_of_lt_succ_of_ne_mod (k j N : Nat) (hj : j < N) (h : j < k + 1) (hne : j ≠ k % N) :
    j < k := by
  rcases Nat.lt_or_ge j k with h2 | h2
  · exact h2
  · have : j = k := by omega
    subst this
    exact absurd (Nat.mod_eq_of_lt hj).symm hne

theorem printed_succ (r : Ring) (k : Nat) :
    printed r (k + 1) = printed r k ++
      [Line.in_function (fn_number (r.body (k % r.N))) (local_var (r.body (k % r.N)))] := by
  simp [printed, List.range_succ]

theorem switched_pairs_succ (r : Ring) (k : Nat) :
    switched_pairs r (k + 1) = switched_pairs r k ++ [(r.T (k % r.N), r.T ((k + 1) % r.N))] := by
  simp [switched_pairs, List.range_succ]

theorem after_yield_frame (c : Code) (r : Ring) (k : Nat) (s : Machine)
    (hB : r.B (k % r.N) + 0x1000 ≤ 2 ^ 64) (x : Nat)
    (hx : x < r.B (k % r.N) + 0xFA8 ∨ r.B (k % r.N) + 0xFF0 ≤ x) :
    (after_yield c r k s).mem x = s.mem x :=
  yielded_mem_frame _ _ _ _ _ hB x hx

theorem after_yield_inv (c : Code) (r : Ring) (scratch : Nat) (s0 : Machine) (k : Nat)
    (s : Machine) (hr : Ring.ok r) (h : Inv c r scratch s0 k s) :
    Inv c r scratch s0 (k + 1) (after_yield c r k s) := by
  obtain ⟨hN, hT0, hinj, hfit, hdisj⟩ := hr
  have hi : k % r.N < r.N := Nat.mod_lt _ hN
  have hi2 : (k + 1) % r.N < r.N := Nat.mod_lt _ hN
  have hB := hfit _ hi
  -- memory of the other blocks is untouched
  have hother : ∀ j, j < r.N → j ≠ k % r.N → ∀ d, d < 0x1000 →
      (after_yield c r k s).mem (r.B j + d) = s.mem (r.B j + d) := by
    intro j hj hne d hd
    apply after_yield_frame c r k s hB
    have := hdisj j hj _ hi hne
    omega
  obtain ⟨m1, m2, m3, m4, m5, m6, m7, m8, m9⟩ :=
    yielded_mem_at s.mem (r.B (k % r.N)) (local_var (r.body (k % r.N)))
      (ret_addr c (r.body (k % r.N)))
      ⟨s.rbx, s.rbp, s.r12, s.r13, s.r14, s.r15, c.scheduler_ret⟩ hB
  obtain ⟨g1, g2, g3, g4, g5, g6⟩ := h.regs
  have hmem : (after_yield c r k s).mem = yielded_mem s.mem (r.B (k % r.N))
      (local_var (r.body (k % r.N))) (ret_addr c (r.body (k % r.N)))
      ⟨s.rbx, s.rbp, s.r12, s.r13, s.r14, s.r15, c.scheduler_ret⟩ := rfl
  have hy : ∀ i, i < r.N → i < k + 1 →
      (after_yield c r k s).mem (r.B i + 0xFE8) = local_var (r.body i) ∧
      (after_yield c r k s).mem (r.B i + 0xFE0) = ret_addr c (r.body i) ∧
      (after_yield c r k s).mem (r.B i + 0xFD8) = c.scheduler_ret ∧
      same_frame (after_yield c r k s).mem (r.B i + 0xFA8) s0.mem (r.B i + 0xFB8) := by
    intro j hj hjk
    by_cases hx : j = k % r.N
    · subst hx
      rw [hmem]
      refine ⟨m1, m2, m3, ?_⟩
      unfold same_frame
      exact ⟨m4.trans g1, m5.trans g2, m6.trans g3, m7.trans g4, m8.trans g5, m9.trans g6⟩
    · obtain ⟨y1, y2, y3, y4, y5, y6, y7, y8, y9⟩ :=
        h.yielded j hj (lt_of_lt_succ_of_ne_mod k j r.N hj hjk hx)
      have ho := hother j hj hx
      refine ⟨(ho _ (by omega)).trans y1, (ho _ (by omega)).trans y2, (ho _ (by omega)).trans y3,
        (ho _ (by omega)).trans y4, ?_, ?_, ?_, ?_, ?_⟩
      · rw [Nat.add_assoc, ho _ (by omega), ← Nat.add_assoc]; exact y5
      · rw [Nat.add_assoc, ho _ (by omega), ← Nat.add_assoc]; exact y6
      · rw [Nat.add_assoc, ho _ (by omega), ← Nat.add_assoc]; exact y7
      · rw [Nat.add_assoc, ho _ (by omega), ← Nat.add_assoc]; exact y8
      · rw [Nat.add_assoc, ho _ (by omega), ← Nat.add_assoc]; exact y9
  have hf : ∀ i, i < r.N → k + 1 ≤ i →
      (after_yield c r k s).mem (r.B i + 0xFE8) = entry c (r.body i) ∧
      same_frame (after_yield c r k s).mem (r.B i + 0xFB8) s0.mem (r.B i + 0xFB8) := by
    intro j hj hjk
    have hx : j ≠ k % r.N := by
      have := Nat.mod_le k r.N
      omega
    obtain ⟨y1, y4, y5, y6, y7, y8, y9⟩ := h.fresh j hj (by omega)
    have ho := hother j hj hx
    refine ⟨(ho _ (by omega)).trans y1, (ho _ (by omega)).trans y4, ?_, ?_, ?_, ?_, ?_⟩
    · rw [Nat.add_assoc, ho _ (by omega), ← Nat.add_assoc]; exact y5
    · rw [Nat.add_assoc, ho _ (by omega), ← Nat.add_assoc]; exact y6
    · rw [Nat.add_assoc, ho _ (by omega), ← Nat.add_assoc]; exact y7
    · rw [Nat.add_assoc, ho _ (by omega), ← Nat.add_assoc]; exact y8
    · rw [Nat.add_assoc, ho _ (by omega), ← Nat.add_assoc]; exact y9
  refine ⟨rfl, ?_, hy, hf, rfl, ?_, ?_, ?_, ?_⟩
  · intro j hj
    by_cases hx : j = k % r.N
    · subst hx
      simp [after_yield, saved_sp_at_self, succ_mod_mod]
    · have hT : r.T j ≠ r.T (k % r.N) := fun hh => hx (hinj _ hj _ hi hh)
      simp only [after_yield, if_neg hT, h.heap j hj, saved_sp_at_succ r k j hj hx]
  · show (after_yield c r k s).mem (saved_sp_at r (k + 1) ((k + 1) % r.N) + 48) = _
    by_cases hk : k + 1 < r.N
    · rw [if_pos hk]
      have e : (k + 1) % r.N = k + 1 := Nat.mod_eq_of_lt hk
      have := (hf _ hi2 (by omega)).1
      rw [e] at this ⊢
      simpa [saved_sp_at] using this
    · rw [if_neg hk]
      have hlt : (k + 1) % r.N < k + 1 := by omega
      have := (hy _ hi2 hlt).2.2.1
      simpa [saved_sp_at, hlt] using this
  · show regs_from (after_yield c r k s) s0.mem _
    by_cases hlt : (k + 1) % r.N < k + 1
    · have e : saved_sp_at r (k + 1) ((k + 1) % r.N) = r.B ((k + 1) % r.N) + 0xFA8 := by
        simp [saved_sp_at, hlt]
      have := (hy _ hi2 hlt).2.2.2
      rw [hmem] at this
      unfold same_frame at this
      simpa only [regs_from, after_yield, e] using this
    · have e : saved_sp_at r (k + 1) ((k + 1) % r.N) = r.B ((k + 1) % r.N) + 0xFB8 := by
        simp [saved_sp_at, hlt]
      have := (hf _ hi2 (by omega)).2
      rw [hmem] at this
      unfold same_frame at this
      simpa only [regs_from, after_yield, e] using this
  · show s.stdout ++ _ = _
    rw [h.stdout, printed_succ, List.append_assoc]
  · show s.switches ++ _ = _
    rw [h.switches, switched_pairs_succ]
    simp

theorem store_self (m : Nat → Nat) (a v : Nat) (h : m a = v) : store m a v = m := by
  funext x
  unfold store
  split
  · next hx => rw [hx, h]
  · rfl

theorem resume_eq (c : Code) (r : Ring) (scratch : Nat) (s0 : Machine) (k : Nat) (s : Machine)
    (hc : Code.ok c) (hr : Ring.ok r) (h : Inv c r scratch s0 k s) :
    ∃ rip, resume c s = scheduler c (at_call s (r.B (k % r.N)) (local_var (r.body (k % r.N)))
        (ret_addr c (r.body (k % r.N))) (fn_number (r.body (k % r.N))) rip) := by
  obtain ⟨hN, hT0, hinj, hfit, hdisj⟩ := hr
  obtain ⟨c1, c2, c3, c4, -⟩ := hc
  have hi : k % r.N < r.N := Nat.mod_lt _ hN
  have hB := hfit _ hi
  have hrsp := h.rsp
  have hrip := h.rip
  by_cases hk : k < r.N
  · -- the thread starts at its entrypoint
    have e : k % r.N = k := Nat.mod_eq_of_lt hk
    rw [if_pos hk] at hrip
    rw [e] at hrsp hB ⊢
    have hsp : s.rsp = r.B k + 0xFF0 := by
      rw [hrsp]; simp [saved_sp_at]
    have h8 : sub64 (r.B k + 0xFF0) 8 = r.B k + 0xFE8 := by
      rw [sub64_eq _ _ (by omega) (by omega)]; omega
    have h16 : sub64 (r.B k + 0xFE8) 8 = r.B k + 0xFE0 := by
      rw [sub64_eq _ _ (by omega) (by omega)]; omega
    refine ⟨s.rip, ?_⟩
    cases hb : r.body k
    · rw [hb] at hrip
      simp only [entry] at hrip
      simp [resume, hrip, func1, func1_loop, push, print_local, at_call, hsp, h8, h16, store,
        local_var, ret_addr, fn_number]
    · rw [hb] at hrip
      simp only [entry] at hrip
      simp [resume, hrip, c1.symm, func2, func2_loop, push, print_local, at_call, hsp, h8, h16,
        store, local_var, ret_addr, fn_number]
  · -- the thread returns from `scheduler`
    rw [if_neg hk] at hrip
    have hik : k % r.N < k := by omega
    obtain ⟨y1, y2, -, -⟩ := h.yielded _ hi hik
    have hsp : s.rsp = r.B (k % r.N) + 0xFE0 := by
      rw [hrsp]; simp [saved_sp_at, hik]
    have h8 : add64 (r.B (k % r.N) + 0xFE0) 8 = r.B (k % r.N) + 0xFE8 := by
      rw [add64_eq _ _ (by omega)]
    have h16 : sub64 (r.B (k % r.N) + 0xFE8) 8 = r.B (k % r.N) + 0xFE0 := by
      rw [sub64_eq _ _ (by omega) (by omega)]; omega
    refine ⟨ret_addr c (r.body (k % r.N)), ?_⟩
    have hst := store_self s.mem _ _ y1
    cases hb : r.body (k % r.N)
    · rw [hb] at y1 y2 hst
      simp [ret_addr, local_var] at y1 y2 hst
      simp [resume, hrip, c2.symm, c3.symm, scheduler_return, func1_loop, push, print_local,
        at_call, hsp, h8, h16, y1, y2, hst, local_var, ret_addr, fn_number]
    · rw [hb] at y1 y2 hst
      simp [ret_addr, local_var] at y1 y2 hst
      simp [resume, hrip, c2.symm, c3.symm, c4.symm, scheduler_return, func2_loop, push,
        print_local, at_call, hsp, h8, h16, y1, y2, hst, local_var, ret_addr, fn_number]

theorem resume_inv (c : Code) (r : Ring) (scratch : Nat) (s0 : Machine) (k : Nat) (s : Machine)
    (hc : Code.ok c) (hr : Ring.ok r) (h : Inv c r scratch s0 k s) :
    resume c s = some (after_yield c r k s) := by
  obtain ⟨rip, e⟩ := resume_eq c r scratch s0 k s hc hr h
  rw [e, yield_eq c r scratch s0 k s hc.2.2.2.2 hr h rip]


theorem run_inv (c : Code) (r : Ring) (scratch : Nat) (s0 s1 : Machine)
    (hc : Code.ok c) (hr : Ring.ok r) (h : Inv c r scratch s0 0 s1) (k : Nat) :
    run c k s1 = some (state_at c r k s1) ∧ Inv c r scratch s0 k (state_at c r k s1) := by
  induction k with
  | zero => exact ⟨rfl, h⟩
  | succ k ih =>
    obtain ⟨e, hk⟩ := ih
    refine ⟨?_, after_yield_inv c r scratch s0 k _ hr hk⟩
    simp only [run, e, Option.bind, state_at]
    exact resume_inv c r scratch s0 k _ hc hr hk

theorem store_regs_frame (m : Nat → Nat) (a : Nat) (f : regs_t) (h : a + 56 ≤ 2 ^ 64) (x : Nat)
    (hx : x < a ∨ a + 56 ≤ x) : store_regs m a f x = m x := by
  rw [store_regs_eq _ _ _ h]
  repeat (rw [if_neg (by omega)])

theorem start_inv (c : Code) (r : Ring) (scratch : Nat) (s : Machine)
    (hc : c.cswitch = cswitch) (hr : Ring.ok r) (hw : Wired c r s)
    (hs : Startable r scratch s) :
    ∃ s1, start_scheduler c scratch (r.T 0) s = some s1 ∧ Inv c r scratch s 0 s1 := by
  obtain ⟨hN, hT0, hinj, hfit, hdisj⟩ := hr
  obtain ⟨hs0, hsT, hsp56, hsp64, hsB⟩ := hs
  obtain ⟨hw0, hw0m⟩ := hw 0 hN
  have hB0 := hfit 0 hN
  have hne : r.T 0 ≠ scratch := hsT 0 hN
  have hsub : sub64 s.rsp 56 = s.rsp - 56 := sub64_eq _ _ hsp56 hsp64
  have e := call_cswitch_eq c hc c.start_ret scratch (r.T 0)
    { new_thread scratch s with cur_thread := r.T 0 }
    ((s.heap scratch).getD ⟨0, 0, 0⟩) ⟨r.B 0 + 0xFB8, r.B 0, r.T ((0 + 1) % r.N)⟩
    hs0 (hT0 0 hN) (by simp [new_thread, hs0, put]) (by simp [new_thread, hs0, put, hne, hw0])
  refine ⟨_, e, ?_⟩
  have hmem : ∀ x, (x < s.rsp - 56 ∨ s.rsp ≤ x) →
      (switched c.start_ret scratch (r.T 0) { new_thread scratch s with cur_thread := r.T 0 }
        ((s.heap scratch).getD ⟨0, 0, 0⟩) ⟨r.B 0 + 0xFB8, r.B 0, r.T ((0 + 1) % r.N)⟩).mem x
        = s.mem x := by
    intro x hx
    simp only [switched, new_thread, if_neg hs0, put, sizeof_regs_t, Nat.reduceMul, hsub]
    exact store_regs_frame _ _ _ (by omega) x (by omega)
  have hblock : ∀ i, i < r.N → ∀ d, d < 0x1000 →
      (switched c.start_ret scratch (r.T 0) { new_thread scratch s with cur_thread := r.T 0 }
        ((s.heap scratch).getD ⟨0, 0, 0⟩) ⟨r.B 0 + 0xFB8, r.B 0, r.T ((0 + 1) % r.N)⟩).mem
          (r.B i + d) = s.mem (r.B i + d) := by
    intro i hi d hd
    apply hmem
    have := hsB i hi
    omega
  have hf : ∀ i, i < r.N →
      same_frame (switched c.start_ret scratch (r.T 0)
        { new_thread scratch s with cur_thread := r.T 0 }
        ((s.heap scratch).getD ⟨0, 0, 0⟩) ⟨r.B 0 + 0xFB8, r.B 0, r.T ((0 + 1) % r.N)⟩).mem
        (r.B i + 0xFB8) s.mem (r.B i + 0xFB8) := by
    intro i hi
    have hb := hblock i hi
    refine ⟨hb _ (by omega), ?_, ?_, ?_, ?_, ?_⟩ <;>
      (rw [Nat.add_assoc, hb _ (by omega)])
  have hrsp : add64 (r.B 0 + 0xFB8) 56 = r.B 0 + 0xFB8 + 56 := add64_eq _ _ (by omega)
  refine ⟨?_, ?_, ?_, ?_, ?_, ?_, ?_, ?_, ?_⟩
  · simp [switched, Nat.zero_mod]
  · intro i hi
    have hi' : r.T i ≠ scratch := hsT i hi
    simp [switched, new_thread, hs0, put, hi', (hw i hi).1, saved_sp_at]
  · intro i _ hi0
    exact absurd hi0 (Nat.not_lt_zero _)
  · intro i hi _
    exact ⟨(hblock i hi _ (by omega)).trans (hw i hi).2, hf i hi⟩
  · simp [switched, hne, saved_sp_at, sizeof_regs_t, hrsp]
  · rw [if_pos hN]
    have := hblock 0 hN 0xFE8 (by omega)
    simp only [switched, if_neg hne, load_regs_eq _ _ (show r.B 0 + 0xFB8 + 56 ≤ 2 ^ 64 by omega)]
      at this ⊢
    rw [Nat.add_assoc]
    exact this.trans hw0m
  · have := hf 0 hN
    unfold same_frame at this
    simpa only [regs_from, switched, if_neg hne, Nat.zero_mod,
      load_regs_eq _ _ (show r.B 0 + 0xFB8 + 56 ≤ 2 ^ 64 by omega)] using this
  · simp [switched, new_thread, hs0, put, printed]
  · simp [switched, new_thread, hs0, put, switched_pairs]

theorem create_thread_eq (entrypoint t stack : Nat) (s : Machine) (ht : t ≠ 0)
    (hs : stack ≠ 0) :
    create_thread entrypoint t stack s = some (t, created entrypoint t stack s) := by
  simp [create_thread, created, initial_sp, new_thread, set_stack_page, set_next, set_saved_sp,
    store_in, deref, put, ht, hs, bind, Option.bind, store]
  funext x
  by_cases hx : x = t <;> simp [hx]

theorem create_thread_null (entrypoint stack : Nat) (s : Machine) :
    create_thread entrypoint 0 stack s = none := by
  simp [create_thread, new_thread, set_stack_page, deref, bind, Option.bind]

theorem create_thread_no_stack (entrypoint t : Nat) (s : Machine) :
    create_thread entrypoint t 0 s = none := by
  by_cases ht : t = 0
  · subst ht
    exact create_thread_null entrypoint 0 s
  · simp [create_thread, new_thread, set_stack_page, set_next, set_saved_sp, store_in, deref,
      put, ht, bind, Option.bind]

theorem frame_top (B : Nat) (h : B + 0x1000 ≤ 2 ^ 64) :
    initial_sp B = B + 0xFB8 ∧ add64 (B + 0xFB8) offsetof_rip = B + 0xFE8 := by
  unfold initial_sp
  have h1 : add64 B (0x1000 - 0x10) = B + 0xFF0 := add64_eq _ _ (by omega)
  have h2 : sub64 (B + 0xFF0) sizeof_regs_t = B + 0xFB8 := by
    rw [sub64_eq _ _ (by simp [sizeof_regs_t]) (by omega)]
    simp [sizeof_regs_t]
  rw [h1, h2]
  exact ⟨rfl, add64_eq _ _ (by simp [offsetof_rip]; omega)⟩

theorem set_next_eq (p v : Nat) (s : Machine) (o : thread_t) (hp : p ≠ 0)
    (h : s.heap p = some o) : set_next p v s = some (put s p { o with next := v }) := by
  simp [set_next, deref, hp, h]


theorem main_wired (c : Code) (e : Env) (s : Machine) (hr : Ring.ok e.ring)
    (hB : ∀ i, i < e.ring.N → e.ring.B i ≠ 0) :
    main c e s = start_scheduler c e.scratch e.t0 (main_threads c e s) ∧
      Wired c e.ring (main_threads c e s) ∧
      (main_threads c e s).rsp = s.rsp ∧ (main_threads c e s).switches = s.switches ∧
      (main_threads c e s).stdout = s.stdout ++ [Line.created e.t0 c.func1 e.stack0,
        Line.created e.t1 c.func2 e.stack1, Line.created e.t2 c.func1 e.stack2,
        Line.created e.t3 c.func2 e.stack3] := by
  obtain ⟨-, hT0, hinj, hfit, hdisj⟩ := hr
  have k0 : 0 < e.ring.N := by show 0 < 4; decide
  have k1 : 1 < e.ring.N := by show 1 < 4; decide
  have k2 : 2 < e.ring.N := by show 2 < 4; decide
  have k3 : 3 < e.ring.N := by show 3 < 4; decide
  have z0 : e.t0 ≠ 0 := hT0 0 k0
  have z1 : e.t1 ≠ 0 := hT0 1 k1
  have z2 : e.t2 ≠ 0 := hT0 2 k2
  have z3 : e.t3 ≠ 0 := hT0 3 k3
  have b0 : e.stack0 ≠ 0 := hB 0 k0
  have b1 : e.stack1 ≠ 0 := hB 1 k1
  have b2 : e.stack2 ≠ 0 := hB 2 k2
  have b3 : e.stack3 ≠ 0 := hB 3 k3
  have n01 : e.t0 ≠ e.t1 := fun h => absurd (hinj 0 k0 1 k1 h) (by decide)
  have n02 : e.t0 ≠ e.t2 := fun h => absurd (hinj 0 k0 2 k2 h) (by decide)
  have n03 : e.t0 ≠ e.t3 := fun h => absurd (hinj 0 k0 3 k3 h) (by decide)
  have n12 : e.t1 ≠ e.t2 := fun h => absurd (hinj 1 k1 2 k2 h) (by decide)
  have n13 : e.t1 ≠ e.t3 := fun h => absurd (hinj 1 k1 3 k3 h) (by decide)
  have n23 : e.t2 ≠ e.t3 := fun h => absurd (hinj 2 k2 3 k3 h) (by decide)
  have f0 : e.stack0 + 0x1000 ≤ 2 ^ 64 := hfit 0 k0
  have f1 : e.stack1 + 0x1000 ≤ 2 ^ 64 := hfit 1 k1
  have f2 : e.stack2 + 0x1000 ≤ 2 ^ 64 := hfit 2 k2
  have f3 : e.stack3 + 0x1000 ≤ 2 ^ 64 := hfit 3 k3
  have d01 : e.stack0 + 0x1000 ≤ e.stack1 ∨ e.stack1 + 0x1000 ≤ e.stack0 :=
    hdisj 0 k0 1 k1 (by decide)
  have d02 : e.stack0 + 0x1000 ≤ e.stack2 ∨ e.stack2 + 0x1000 ≤ e.stack0 :=
    hdisj 0 k0 2 k2 (by decide)
  have d03 : e.stack0 + 0x1000 ≤ e.stack3 ∨ e.stack3 + 0x1000 ≤ e.stack0 :=
    hdisj 0 k0 3 k3 (by decide)
  have d12 : e.stack1 + 0x1000 ≤ e.stack2 ∨ e.stack2 + 0x1000 ≤ e.stack1 :=
    hdisj 1 k1 2 k2 (by decide)
  have d13 : e.stack1 + 0x1000 ≤ e.stack3 ∨ e.stack3 + 0x1000 ≤ e.stack1 :=
    hdisj 1 k1 3 k3 (by decide)
  have d23 : e.stack2 + 0x1000 ≤ e.stack3 ∨ e.stack3 + 0x1000 ≤ e.stack2 :=
    hdisj 2 k2 3 k3 (by decide)
  have a01 : e.stack0 ≠ e.stack1 := by omega
  have a02 : e.stack0 ≠ e.stack2 := by omega
  have a03 : e.stack0 ≠ e.stack3 := by omega
  have a12 : e.stack1 ≠ e.stack2 := by omega
  have a13 : e.stack1 ≠ e.stack3 := by omega
  have a23 : e.stack2 ≠ e.stack3 := by omega
  refine ⟨?_, ?_, ?_, ?_, ?_⟩
  · simp only [main, bind, Option.bind, create_thread_eq _ _ _ _ z0 b0,
      create_thread_eq _ _ _ _ z1 b1, create_thread_eq _ _ _ _ z2 b2,
      create_thread_eq _ _ _ _ z3 b3]
    rw [set_next_eq e.t0 e.t1 _ ⟨initial_sp e.stack0, e.stack0, 0⟩ z0 (by simp [created, n01, n02, n03])]
    simp only []
    rw [set_next_eq e.t1 e.t2 _ ⟨initial_sp e.stack1, e.stack1, 0⟩ z1 (by simp [created, put, n01.symm, n12, n13])]
    simp only []
    rw [set_next_eq e.t2 e.t3 _ ⟨initial_sp e.stack2, e.stack2, 0⟩ z2
      (by simp [created, put, n02.symm, n12.symm, n23])]
    simp only []
    rw [set_next_eq e.t3 e.t0 _ ⟨initial_sp e.stack3, e.stack3, 0⟩ z3
      (by simp [created, put, n03.symm, n13.symm, n23.symm])]
    rfl
  · obtain ⟨q0, p0⟩ := frame_top _ f0
    obtain ⟨q1, p1⟩ := frame_top _ f1
    obtain ⟨q2, p2⟩ := frame_top _ f2
    obtain ⟨q3, p3⟩ := frame_top _ f3
    intro i hi
    have hi4 : i < 4 := hi
    interval_cases i
    · simp [main_threads, Env.ring, created, put, n01, n02, n03, q0, q1, q2, q3, p0, p1, p2, p3,
        store, a01, a02, a03, entry]
    · simp [main_threads, Env.ring, created, put, n01.symm, n12, n13, q0, q1, q2, q3, p0, p1, p2,
        p3, store, a12, a13, entry]
    · simp [main_threads, Env.ring, created, put, n02.symm, n12.symm, n23, q0, q1, q2, q3, p0, p1,
        p2, p3, store, a23, entry]
    · simp [main_threads, Env.ring, created, put, n03.symm, n13.symm, n23.symm, q0, q1, q2, q3,
        p0, p1, p2, p3, store, entry]
  · rfl
  · rfl
  · simp [main_threads, created, put]

theorem startable_of_rsp (r : Ring) (scratch : Nat) (s w : Machine) (h : w.rsp = s.rsp)
    (hs : Startable r scratch s) : Startable r scratch w := by
  unfold Startable at hs ⊢
  rw [h]
  exact hs

/-- Every run from a freshly wired ring satisfies the invariant. -/
theorem after_inv (c : Code) (r : Ring) (scratch : Nat) (s : Machine)
    (hc : Code.ok c) (hr : Ring.ok r) (hw : Wired c r s) (hs : Startable r scratch s)
    (k : Nat) :
    ∃ s2, after c scratch (r.T 0) s k = some s2 ∧ Inv c r scratch s k s2 := by
  obtain ⟨s1, e1, h1⟩ := start_inv c r scratch s hc.2.2.2.2 hr hw hs
  obtain ⟨e2, h2⟩ := run_inv c r scratch s s1 hc hr h1 k
  exact ⟨_, by simp [after, e1, e2], h2⟩

theorem pair_wired (c : Code) (t0 stack0 t1 stack1 scratch : Nat) (s : Machine)
    (hr : Ring.ok (pair_ring t0 stack0 t1 stack1)) (hb0 : stack0 ≠ 0) (hb1 : stack1 ≠ 0) :
    two_threads c t0 stack0 t1 stack1 scratch s =
        start_scheduler c scratch t0 (pair_threads c t0 stack0 t1 stack1 s) ∧
      Wired c (pair_ring t0 stack0 t1 stack1) (pair_threads c t0 stack0 t1 stack1 s) ∧
      (pair_threads c t0 stack0 t1 stack1 s).rsp = s.rsp ∧
      (pair_threads c t0 stack0 t1 stack1 s).switches = s.switches ∧
      (pair_threads c t0 stack0 t1 stack1 s).stdout = s.stdout ++
        [Line.created t0 c.func1 stack0, Line.created t1 c.func2 stack1] := by
  obtain ⟨-, hT0, hinj, hfit, hdisj⟩ := hr
  have k0 : 0 < (pair_ring t0 stack0 t1 stack1).N := by show 0 < 2; decide
  have k1 : 1 < (pair_ring t0 stack0 t1 stack1).N := by show 1 < 2; decide
  have z0 : t0 ≠ 0 := hT0 0 k0
  have z1 : t1 ≠ 0 := hT0 1 k1
  have n01 : t0 ≠ t1 := fun h => absurd (hinj 0 k0 1 k1 h) (by decide)
  have f0 : stack0 + 0x1000 ≤ 2 ^ 64 := hfit 0 k0
  have f1 : stack1 + 0x1000 ≤ 2 ^ 64 := hfit 1 k1
  have d01 : stack0 + 0x1000 ≤ stack1 ∨ stack1 + 0x1000 ≤ stack0 :=
    hdisj 0 k0 1 k1 (by decide)
  have a01 : stack0 ≠ stack1 := by omega
  refine ⟨?_, ?_, ?_, ?_, ?_⟩
  · simp only [two_threads, bind, Option.bind, create_thread_eq _ _ _ _ z0 hb0,
      create_thread_eq _ _ _ _ z1 hb1]
    rw [set_next_eq t0 t1 _ ⟨initial_sp stack0, stack0, 0⟩ z0 (by simp [created, n01])]
    simp only []
    rw [set_next_eq t1 t0 _ ⟨initial_sp stack1, stack1, 0⟩ z1
      (by simp [created, put, n01.symm])]
    rfl
  · obtain ⟨q0, p0⟩ := frame_top _ f0
    obtain ⟨q1, p1⟩ := frame_top _ f1
    intro i hi
    have hi2 : i < 2 := hi
    interval_cases i
    · simp [pair_threads, pair_ring, created, put, n01, q0, q1, p0, p1, store, a01, entry]
    · simp [pair_threads, pair_ring, created, put, n01.symm, q0, q1, p0, p1, store, entry]
  · rfl
  · rfl
  · simp [pair_threads, created, put]

theorem mod_add_ne (N k d : Nat) (hd : 0 < d) (hdN : d < N) : (k + d) % N ≠ k % N := by
  intro h
  have h1 : Nat.ModEq N (k + d) (k + 0) := by
    unfold Nat.ModEq
    simpa using h
  have h2 : Nat.ModEq N d 0 := Nat.ModEq.add_left_cancel' k h1
  unfold Nat.ModEq at h2
  rw [Nat.mod_eq_of_lt hdN, Nat.zero_mod] at h2
  omega

/-- What a successful call of `cswitch` has done. -/
theorem cswitch_inv (ra old new : Nat) (s s2 : Machine) (h : cswitch ra old new s = some s2) :
    s2.mem = store_regs s.mem (sub64 s.rsp sizeof_regs_t)
        ⟨s.rbx, s.rbp, s.r12, s.r13, s.r14, s.r15, ra⟩ ∧
    (∃ o, s.heap old = some o ∧
      s2.heap old = some { o with saved_sp := sub64 s.rsp sizeof_regs_t }) ∧
    (∀ x, x ≠ old → s2.heap x = s.heap x) ∧
    (∃ n, s2.heap new = some n ∧ s2.rsp = add64 n.saved_sp sizeof_regs_t ∧
      s2.rbx = (load_regs s2.mem n.saved_sp).rbx ∧ s2.rbp = (load_regs s2.mem n.saved_sp).rbp ∧
      s2.r12 = (load_regs s2.mem n.saved_sp).r12 ∧ s2.r13 = (load_regs s2.mem n.saved_sp).r13 ∧
      s2.r14 = (load_regs s2.mem n.saved_sp).r14 ∧ s2.r15 = (load_regs s2.mem n.saved_sp).r15 ∧
      s2.rip = (load_regs s2.mem n.saved_sp).rip) ∧
    s2.cur_thread = s.cur_thread ∧ s2.switches = s.switches ∧ s2.stdout = s.stdout := by
  simp only [cswitch, bind, Option.bind_eq_some, set_saved_sp, Option.map_eq_some'] at h
  obtain ⟨s3, ⟨o, ho, rfl⟩, n, hn, h⟩ := h
  cases h
  have ho' : old ≠ 0 ∧ s.heap old = some o := by
    unfold deref at ho
    split at ho
    · exact absurd ho (by simp)
    · next h0 => exact ⟨h0, ho⟩
  have hn' : (put { s with
      mem := store_regs s.mem (sub64 s.rsp sizeof_regs_t)
        ⟨s.rbx, s.rbp, s.r12, s.r13, s.r14, s.r15, ra⟩,
      rsp := sub64 s.rsp sizeof_regs_t } old
        { o with saved_sp := sub64 s.rsp sizeof_regs_t }).heap new = some n := by
    unfold deref at hn
    split at hn
    · exact absurd hn (by simp)
    · exact hn
  refine ⟨rfl, ⟨o, ho'.2, by simp [put]⟩, ?_, ⟨n, hn', rfl, rfl, rfl, rfl, rfl, rfl, rfl, rfl⟩,
    rfl, rfl, rfl⟩
  intro x hx
  simp [put, hx]

theorem deref_ne_none (s : Machine) (p : Nat) (h : deref s p ≠ none) :
    p ≠ 0 ∧ ∃ o, s.heap p = some o := by
  unfold deref at h
  split at h
  · exact absurd rfl h
  · next h0 => exact ⟨h0, Option.ne_none_iff_exists'.1 h⟩

theorem cswitch_ne_none (ra old new : Nat) (s : Machine)
    (h1 : deref s old ≠ none) (h2 : deref s new ≠ none) : cswitch ra old new s ≠ none := by
  obtain ⟨ho, o, h1⟩ := deref_ne_none s old h1
  obtain ⟨hn, n, h2⟩ := deref_ne_none s new h2
  by_cases h : new = old
  · subst h
    simp [cswitch, set_saved_sp, deref, put, ho, h1, bind, Option.bind]
  · simp [cswitch, set_saved_sp, deref, put, ho, hn, h1, h2, h, bind, Option.bind]

/-- The modelled `cswitch` meets the contract `main.c` relies on. -/
theorem model_switch_ok (c : Code) (hc : c.cswitch = cswitch) : c.switch_ok := by
  constructor
  · intro ra old new s s2 h
    rw [hc] at h
    obtain ⟨-, ⟨o, ho, ho2⟩, hx, -, g1, g2, -⟩ := cswitch_inv ra old new s s2 h
    refine ⟨g1, g2, hx, ?_, ?_⟩
    · simp only [ho, ho2, Option.map_some']
    · simp only [ho, ho2, Option.map_some']
  · intro ra old new s h1 h2
    rw [hc]
    exact cswitch_ne_none ra old new s h1 h2

/-! ### Runs in which the threads keep to their stacks -/

theorem load_store_regs (m : Nat → Nat) (a : Nat) (f : regs_t) (h : a + 56 ≤ 2 ^ 64) :
    load_regs (store_regs m a f) a = f := by
  rw [load_regs_eq _ _ h]
  simp [store_regs_eq _ _ _ h]

theorem load_regs_congr (m m2 : Nat → Nat) (x : Nat) (h : x + 56 ≤ 2 ^ 64)
    (hm : ∀ a, x ≤ a → a < x + 56 → m a = m2 a) : load_regs m x = load_regs m2 x := by
  rw [load_regs_eq _ _ h, load_regs_eq _ _ h, hm x (by omega) (by omega),
    hm (x + 8) (by omega) (by omega), hm (x + 16) (by omega) (by omega),
    hm (x + 24) (by omega) (by omega), hm (x + 32) (by omega) (by omega),
    hm (x + 40) (by omega) (by omega), hm (x + 48) (by omega) (by omega)]

theorem turns_succ (c : Code) (work : Nat → Machine → Machine) (scratch init : Nat)
    (s : Machine) (k : Nat) :
    turns c work scratch init s (k + 1) =
      (turns c work scratch init s k).bind fun p => scheduler c (work k p) := by
  unfold turns
  cases start_scheduler c scratch init s with
  | none => rfl
  | some s0 => rfl

/-- The thread that was given control has its stack pointer inside its block. -/
theorem given_rsp (r : Ring) (hr : Ring.ok r) (k : Nat) (s : Machine) (h : Given r k s) :
    r.B (k % r.N) + 56 ≤ s.rsp ∧ s.rsp ≤ r.B (k % r.N) + 0xFF0 := by
  obtain ⟨hN, -, -, hfit, -⟩ := hr
  have hi : k % r.N < r.N := Nat.mod_lt _ hN
  obtain ⟨sp, hsp, h1, h2⟩ := h.heap _ hi
  obtain ⟨n, hn, hrsp, -⟩ := h.loaded
  rw [hsp] at hn
  have e : n.saved_sp = sp := by
    rw [← Option.some.inj hn]
  have hf := hfit _ hi
  rw [hrsp, e, add64_eq _ _ (by simp only [sizeof_regs_t, Nat.reduceMul]; omega)]
  simp only [sizeof_regs_t, Nat.reduceMul]
  omega

/-- The first switch: `start_scheduler` gives control to the first thread. -/
theorem given_start (c : Code) (hc : c.cswitch = cswitch) (r : Ring) (hr : Ring.ok r)
    (scratch : Nat) (s : Machine) (hw : Wired c r s) (hs : Startable r scratch s) :
    ∃ s0, start_scheduler c scratch (r.T 0) s = some s0 ∧ Given r 0 s0 := by
  obtain ⟨hN, hT0, -, hfit, -⟩ := hr
  obtain ⟨h0, hne, -⟩ := hs
  have e : start_scheduler c scratch (r.T 0) s = cswitch c.start_ret scratch (r.T 0)
      (entered scratch (r.T 0) { new_thread scratch s with cur_thread := r.T 0 }) := by
    unfold start_scheduler call_cswitch
    rw [hc]
    rfl
  have hk : ∀ x, x ≠ scratch →
      (entered scratch (r.T 0) { new_thread scratch s with cur_thread := r.T 0 }).heap x =
        s.heap x := by
    intro x hx
    simp [entered, new_thread, h0, put, hx]
  obtain ⟨s0, e0⟩ := Option.ne_none_iff_exists'.1 (cswitch_ne_none c.start_ret scratch (r.T 0)
    (entered scratch (r.T 0) { new_thread scratch s with cur_thread := r.T 0 })
    (by simp [deref, entered, new_thread, h0, put])
    (by
      have := (hw 0 hN).1
      simp [deref, entered, new_thread, h0, put, hne 0 hN, hT0 0 hN, this]))
  obtain ⟨-, -, hx, hl, g1, -, -⟩ := cswitch_inv _ _ _ _ _ e0
  refine ⟨s0, by rw [e, e0], ?_, ?_, ?_⟩
  · rw [g1, Nat.zero_mod]
    rfl
  · intro j hj
    refine ⟨r.B j + 0xFB8, ?_, by omega, by omega⟩
    rw [hx _ (hne j hj), hk _ (hne j hj)]
    exact (hw j hj).1
  · rw [Nat.zero_mod]
    exact hl

/-- One turn: the running thread does its work and calls `scheduler()`. -/
theorem given_step (c : Code) (hc : c.cswitch = cswitch) (r : Ring) (hr : Ring.ok r)
    (k : Nat) (s : Machine) (f : Machine → Machine) (h : Given r k s)
    (hf : Confined r (k % r.N) f s) :
    ∃ s2, scheduler c (f s) = some s2 ∧ Given r (k + 1) s2 ∧
      (∀ a, a < r.B (k % r.N) ∨ r.B (k % r.N) + 0x1000 ≤ a → s2.mem a = s.mem a) ∧
      (∀ j, j < r.N → j ≠ k % r.N → s2.heap (r.T j) = s.heap (r.T j)) ∧
      s2.heap (r.T (k % r.N)) =
        some ⟨(f s).rsp - 56, r.B (k % r.N), r.T ((k + 1) % r.N)⟩ ∧
      (∀ a, a < (f s).rsp - 56 ∨ (f s).rsp ≤ a → s2.mem a = (f s).mem a) ∧
      load_regs s2.mem ((f s).rsp - 56) =
        ⟨(f s).rbx, (f s).rbp, (f s).r12, (f s).r13, (f s).r14, (f s).r15,
          c.scheduler_ret⟩ := by
  obtain ⟨hN, hT0, hinj, hfit, hdisj⟩ := hr
  have hi : k % r.N < r.N := Nat.mod_lt _ hN
  have hi2 : (k + 1) % r.N < r.N := Nat.mod_lt _ hN
  obtain ⟨hh, hcur, -, hmem, hlo, hhi⟩ := hf
  obtain ⟨sp, hsp, -, -⟩ := h.heap _ hi
  rw [succ_mod_mod] at hsp
  obtain ⟨sp2, hsp2, -, -⟩ := h.heap _ hi2
  have hB := hfit _ hi
  have hcur2 : (f s).cur_thread = r.T (k % r.N) := by rw [hcur, h.cur]
  have hw1 : (f s).heap (r.T (k % r.N)) = some ⟨sp, r.B (k % r.N), r.T ((k + 1) % r.N)⟩ := by
    rw [hh]
    exact hsp
  have hw2 : (f s).heap (r.T ((k + 1) % r.N)) =
      some ⟨sp2, r.B ((k + 1) % r.N), r.T (((k + 1) % r.N + 1) % r.N)⟩ := by
    rw [hh]
    exact hsp2
  have e : scheduler c (f s) = cswitch c.scheduler_ret (r.T (k % r.N)) (r.T ((k + 1) % r.N))
      (entered (r.T (k % r.N)) (r.T ((k + 1) % r.N))
        { f s with cur_thread := r.T ((k + 1) % r.N) }) := by
    simp [scheduler, call_cswitch, entered, hc, deref, hcur2, hT0 _ hi, hw1, bind, Option.bind]
  obtain ⟨s2, e2⟩ := Option.ne_none_iff_exists'.1 (cswitch_ne_none c.scheduler_ret
    (r.T (k % r.N)) (r.T ((k + 1) % r.N))
    (entered (r.T (k % r.N)) (r.T ((k + 1) % r.N))
      { f s with cur_thread := r.T ((k + 1) % r.N) })
    (by simp [deref, entered, hT0 _ hi, hw1]) (by simp [deref, entered, hT0 _ hi2, hw2]))
  obtain ⟨m1, ⟨o, ho, ho2⟩, hx, hl, g1, -, -⟩ := cswitch_inv _ _ _ _ _ e2
  have hsub : sub64 (f s).rsp sizeof_regs_t = (f s).rsp - 56 := by
    rw [sub64_eq _ _ (by simp only [sizeof_regs_t, Nat.reduceMul]; omega) (by omega)]
    simp only [sizeof_regs_t, Nat.reduceMul]
  have hm1 : s2.mem = store_regs (f s).mem ((f s).rsp - 56)
      ⟨(f s).rbx, (f s).rbp, (f s).r12, (f s).r13, (f s).r14, (f s).r15,
        c.scheduler_ret⟩ := by
    rw [m1, ← hsub]
    rfl
  have ho3 : o = ⟨sp, r.B (k % r.N), r.T ((k + 1) % r.N)⟩ := by
    have : (f s).heap (r.T (k % r.N)) = some o := ho
    rw [hw1] at this
    exact (Option.some.inj this).symm
  have hown : s2.heap (r.T (k % r.N)) =
      some ⟨(f s).rsp - 56, r.B (k % r.N), r.T ((k + 1) % r.N)⟩ := by
    rw [ho2, ho3, ← hsub]
    rfl
  have hothers : ∀ j, j < r.N → j ≠ k % r.N → s2.heap (r.T j) = s.heap (r.T j) := by
    intro j hj hne
    have hT : r.T j ≠ r.T (k % r.N) := fun hT => hne (hinj _ hj _ hi hT)
    rw [hx _ hT, ← hh]
    rfl
  have hfs : (f s).rsp - 56 + 56 ≤ 2 ^ 64 := by omega
  refine ⟨s2, by rw [e, e2], ⟨?_, ?_, hl⟩, ?_, hothers, hown, ?_, ?_⟩
  · rw [g1]
    rfl
  · intro j hj
    by_cases hne : j = k % r.N
    · subst hne
      rw [succ_mod_mod]
      exact ⟨_, hown, by omega, by omega⟩
    · rw [hothers j hj hne]
      exact h.heap j hj
  · intro a ha
    rw [hm1, store_regs_frame _ _ _ hfs a (by omega)]
    exact hmem a ha
  · intro a ha
    rw [hm1, store_regs_frame _ _ _ hfs a (by omega)]
  · rw [hm1]
    exact load_store_regs _ _ _ hfs

/-- Every turn of a run in which the threads keep to their stacks succeeds. -/
theorem given_run (c : Code) (hc : c.cswitch = cswitch) (r : Ring) (hr : Ring.ok r)
    (scratch : Nat) (s : Machine) (work : Nat → Machine → Machine)
    (hw : Wired c r s) (hs : Startable r scratch s)
    (hwork : ∀ j p, turns c work scratch (r.T 0) s j = some p → Given r j p →
      Confined r (j % r.N) (work j) p) (k : Nat) :
    ∃ p, turns c work scratch (r.T 0) s k = some p ∧ Given r k p := by
  induction k with
  | zero =>
    obtain ⟨s0, e0, h0⟩ := given_start c hc r hr scratch s hw hs
    exact ⟨s0, by simp [turns, ticks, e0], h0⟩
  | succ k ih =>
    obtain ⟨p, ep, hp⟩ := ih
    obtain ⟨s2, e2, h2, -⟩ := given_step c hc r hr k p (work k) hp (hwork k p ep hp)
    exact ⟨s2, by rw [turns_succ, ep]; exact e2, h2⟩

/-- While a thread is suspended, the turns of the other threads leave its descriptor
and its stack block as they were. -/
theorem suspended_kept (c : Code) (hc : c.cswitch = cswitch) (r : Ring) (hr : Ring.ok r)
    (scratch : Nat) (s : Machine) (work : Nat → Machine → Machine)
    (hwork : ∀ j p, turns c work scratch (r.T 0) s j = some p → Given r j p →
      Confined r (j % r.N) (work j) p)
    (k : Nat) (p1 : Machine) (e1 : turns c work scratch (r.T 0) s (k + 1) = some p1)
    (h1 : Given r (k + 1) p1) (d : Nat) (hd : d < r.N) :
    ∃ sj, turns c work scratch (r.T 0) s (k + 1 + d) = some sj ∧ Given r (k + 1 + d) sj ∧
      sj.heap (r.T (k % r.N)) = p1.heap (r.T (k % r.N)) ∧
      ∀ a, r.B (k % r.N) ≤ a → a < r.B (k % r.N) + 0x1000 → sj.mem a = p1.mem a := by
  have hr2 := hr
  obtain ⟨hN, hT0, hinj, hfit, hdisj⟩ := hr
  induction d with
  | zero => exact ⟨p1, e1, h1, rfl, fun _ _ _ => rfl⟩
  | succ d ih =>
    obtain ⟨sj, ej, hj, hheap, hmem⟩ := ih (by omega)
    have hne : (k + 1 + d) % r.N ≠ k % r.N := by
      rw [Nat.add_assoc]
      exact mod_add_ne r.N k (1 + d) (by omega) (by omega)
    have hi : (k + 1 + d) % r.N < r.N := Nat.mod_lt _ hN
    have hk : k % r.N < r.N := Nat.mod_lt _ hN
    have hdj := hdisj _ hi _ hk hne
    obtain ⟨s2, e2, h2, f1, f2, -⟩ :=
      given_step c hc r hr2 (k + 1 + d) sj (work (k + 1 + d)) hj (hwork _ sj ej hj)
    refine ⟨s2, ?_, h2, ?_, ?_⟩
    · show turns c work scratch (r.T 0) s (k + 1 + d + 1) = some s2
      rw [turns_succ, ej]
      exact e2
    · rw [f2 _ hk (Ne.symm hne)]
      exact hheap
    · intro a ha1 ha2
      rw [f1 a (by omega)]
      exact hmem a ha1 ha2

/-- The example work keeps to the stack of its thread. -/
theorem demo_work_confined (r : Ring) (hr : Ring.ok r) (j : Nat) (p : Machine)
    (h : Given r j p) : Confined r (j % r.N) (demo_work j) p := by
  obtain ⟨h1, h2⟩ := given_rsp r hr j p h
  refine ⟨rfl, rfl, rfl, ?_, h1, h2⟩
  intro a ha
  show store p.mem p.rsp j a = p.mem a
  unfold store
  rw [if_neg (by omega)]

/-- Work that keeps to the stack of its thread wherever that thread was given control
does so in every state of the run. -/
theorem run_confined (c : Code) (hc : c.cswitch = cswitch) (r : Ring) (hr : Ring.ok r)
    (scratch : Nat) (s : Machine) (work : Nat → Machine → Machine)
    (hw : Wired c r s) (hs : Startable r scratch s)
    (hall : ∀ j p, Given r j p → Confined r (j % r.N) (work j) p) (j : Nat) (p : Machine)
    (e : turns c work scratch (r.T 0) s j = some p) : Confined r (j % r.N) (work j) p := by
  obtain ⟨p2, e2, h2⟩ := given_run c hc r hr scratch s work hw hs (fun j p _ h => hall j p h) j
  rw [e2] at e
  rw [← Option.some.inj e]
  exact hall j p2 h2

theorem step_exec_keeps (a : Step) (s s2 : Machine) (h : a.exec s = some s2) :
    s2.cur_thread = s.cur_thread ∧ s2.switches = s.switches ∧ s2.rip = s.rip := by
  cases a with
  | push v =>
    cases h
    exact ⟨rfl, rfl, rfl⟩
  | print n =>
    cases h
    exact ⟨rfl, rfl, rfl⟩
  | create entrypoint t stack =>
    by_cases ht : t = 0
    · subst ht
      simp [Step.exec, create_thread_null] at h
    · by_cases hs : stack = 0
      · subst hs
        simp [Step.exec, create_thread_no_stack] at h
      · simp only [Step.exec, create_thread_eq _ _ _ _ ht hs, Option.map] at h
        cases h
        exact ⟨rfl, rfl, rfl⟩
  | link p q =>
    simp only [Step.exec, set_next] at h
    obtain ⟨o, -, rfl⟩ := Option.map_eq_some'.1 h
    exact ⟨rfl, rfl, rfl⟩

theorem exec_keeps (steps : List Step) :
    ∀ s s2 : Machine, exec steps s = some s2 →
      s2.cur_thread = s.cur_thread ∧ s2.switches = s.switches ∧ s2.rip = s.rip := by
  induction steps with
  | nil =>
    intro s s2 h
    cases h
    exact ⟨rfl, rfl, rfl⟩
  | cons a l ih =>
    intro s s2 h
    simp only [exec] at h
    cases h1 : a.exec s with
    | none => simp [h1] at h
    | some s1 =>
      rw [h1] at h
      obtain ⟨e1, e2, e3⟩ := step_exec_keeps a s s1 h1
      obtain ⟨f1, f2, f3⟩ := ih s1 s2 h
      exact ⟨f1.trans e1, f2.trans e2, f3.trans e3⟩

/-! ## The claims -/

/-- C1: in a ring of `N ≥ 1` descriptors wired `T 0 → T 1 → ... → T (N-1) → T 0` with
the scheduler started on `T 0`, call number `k` of `scheduler()` (for `k = 0, ..., M-1`)
is made while `T (k mod N)` runs and switches to `T ((k+1) mod N)`, whatever the
thread bodies do in between; after `M` calls `T (M mod N)` runs.  In the ring built by
`main`, all allocations having succeeded, eight calls are made by
`t0, t1, t2, t3, t0, t1, t2, t3` in this order.  The
routine `cswitch` is any routine that meets `Code.switch_ok`. -/
theorem scheduler_visits_ring_in_order (c : Code) (N : Nat) (T : Nat → Nat) (s : Machine)
    (work : Nat → Machine → Machine) (M : Nat) (e : Env) (boot : Machine)
    (hk : c.switch_ok) (hN : 1 ≤ N) (hl : Linked N T s) (hcur : s.cur_thread = T 0)
    (hw : ∀ k, Local (work k)) (he : Ring.ok e.ring)
    (hB : ∀ i, i < e.ring.N → e.ring.B i ≠ 0) (h0 : e.scratch ≠ 0)
    (hs : ∀ i, i < e.ring.N → e.ring.T i ≠ e.scratch) :
    (∃ s2, ticks c work M s = some s2 ∧
      s2.switches = s.switches ++ (List.range M).map (fun k => (T (k % N), T ((k + 1) % N))) ∧
      s2.cur_thread = T (M % N)) ∧
    (∃ s3, (main c e boot).bind (ticks c work 8) = some s3 ∧
      s3.switches = boot.switches ++ [(e.scratch, e.t0), (e.t0, e.t1), (e.t1, e.t2),
        (e.t2, e.t3), (e.t3, e.t0), (e.t0, e.t1), (e.t1, e.t2), (e.t2, e.t3), (e.t3, e.t0)] ∧
      s3.cur_thread = e.t0) := by
  constructor
  · obtain ⟨s2, e2, -, hc2, hsw, -⟩ :=
      ticks_linked c hk N T hN work hw s 0 hl (by simpa using hcur) M
    exact ⟨s2, e2, by simpa using hsw, by simpa using hc2⟩
  · obtain ⟨em, hwd, -, hsw, -⟩ := main_wired c e boot he hB
    have hl4 : Linked e.ring.N e.ring.T (main_threads c e boot) := by
      intro i hi
      refine ⟨he.2.1 i hi, ?_⟩
      rw [(hwd i hi).1]
      rfl
    obtain ⟨s1, e1, hl1, hc1, hsw1, -⟩ :=
      start_linked c hk e.ring.N e.ring.T _ e.scratch 0 hl4 he.1 h0 hs
    obtain ⟨s3, e3, -, hc3, hsw3, -⟩ :=
      ticks_linked c hk e.ring.N e.ring.T he.1 work hw s1 0 hl1 (by simpa using hc1) 8
    have hT0 : e.ring.T 0 = e.t0 := rfl
    rw [hT0] at e1
    refine ⟨s3, ?_, ?_, ?_⟩
    · rw [em, e1]
      exact e3
    · rw [hsw3, hsw1, hsw]
      simp [Env.ring, List.range_succ]
    · rw [hc3]
      simp [Env.ring]

/-- The theorem `scheduler_visits_ring_in_order` at the example run of `main`. -/
theorem scheduler_visits_ring_in_order_witness :
    (demo_code.switch_ok ∧ 1 ≤ 4 ∧ Linked 4 demo_env.ring.T demo_started ∧
      demo_started.cur_thread = demo_env.ring.T 0 ∧
      Ring.ok demo_env.ring ∧ (∀ i, i < demo_env.ring.N → demo_env.ring.B i ≠ 0) ∧
      demo_env.scratch ≠ 0 ∧
      ∀ i, i < demo_env.ring.N → demo_env.ring.T i ≠ demo_env.scratch) ∧
    ((∃ s2, ticks demo_code (fun _ => print_local 1) 8 demo_started = some s2 ∧
      s2.switches = demo_started.switches ++
        (List.range 8).map (fun k => (demo_env.ring.T (k % 4), demo_env.ring.T ((k + 1) % 4))) ∧
      s2.cur_thread = demo_env.ring.T (8 % 4)) ∧
    (∃ s3, (main demo_code demo_env demo_boot).bind
        (ticks demo_code (fun _ => print_local 1) 8) = some s3 ∧
      s3.switches = demo_boot.switches ++ [(demo_env.scratch, demo_env.t0),
        (demo_env.t0, demo_env.t1), (demo_env.t1, demo_env.t2), (demo_env.t2, demo_env.t3),
        (demo_env.t3, demo_env.t0), (demo_env.t0, demo_env.t1), (demo_env.t1, demo_env.t2),
        (demo_env.t2, demo_env.t3), (demo_env.t3, demo_env.t0)] ∧
      s3.cur_thread = demo_env.t0)) :=
  ⟨⟨model_switch_ok demo_code rfl, by decide, by unfold Linked; decide, by decide,
      by unfold Ring.ok; decide, by decide, by decide, by decide⟩,
    scheduler_visits_ring_in_order demo_code 4 demo_env.ring.T demo_started
      (fun _ => print_local 1) 8 demo_env demo_boot (model_switch_ok demo_code rfl)
      (by decide) (by unfold Linked; decide)
      (by decide) (fun _ _ => ⟨rfl, rfl, rfl⟩)
      (by unfold Ring.ok; decide) (by decide) (by decide) (by decide)⟩

/-- C2: in a ring of `N ≥ 1` distinct descriptors started on `T 0`, among the first `M`
calls of `scheduler()` the number made by thread `i` (the turns it has had) is
`floor(M/N)` or `ceil(M/N)`, namely `M / N` plus one exactly when `i < M mod N`; the
number of times thread `i` was switched to is `floor(M/N)` or `ceil(M/N)` as well; and
for either count the numbers of two threads differ by at most one. -/
theorem scheduler_is_fair (c : Code) (N : Nat) (T : Nat → Nat) (s : Machine)
    (work : Nat → Machine → Machine) (M : Nat) (hk : c.switch_ok)
    (hN : 1 ≤ N) (hd : ∀ i, i < N → ∀ j, j < N → T i = T j → i = j)
    (hl : Linked N T s) (hcur : s.cur_thread = T 0) (hw : ∀ k, Local (work k)) :
    ∃ s2, ticks c work M s = some s2 ∧
      (∀ i, i < N →
        runs (T i) (s2.switches.drop s.switches.length) = M / N + (if i < M % N then 1 else 0) ∧
        (runs (T i) (s2.switches.drop s.switches.length) = M / N ∨
          runs (T i) (s2.switches.drop s.switches.length) = (M + N - 1) / N) ∧
        (dispatches (T i) (s2.switches.drop s.switches.length) = M / N ∨
          dispatches (T i) (s2.switches.drop s.switches.length) = (M + N - 1) / N)) ∧
      (∀ i, i < N → ∀ j, j < N →
        runs (T i) (s2.switches.drop s.switches.length) ≤
          runs (T j) (s2.switches.drop s.switches.length) + 1 ∧
        dispatches (T i) (s2.switches.drop s.switches.length) ≤
          dispatches (T j) (s2.switches.drop s.switches.length) + 1) := by
  obtain ⟨s2, e2, -, -, hsw, -⟩ :=
    ticks_linked c hk N T hN work hw s 0 hl (by simpa using hcur) M
  have hdrop : s2.switches.drop s.switches.length =
      (List.range M).map (fun k => (T (k % N), T ((k + 1) % N))) := by
    rw [hsw, List.drop_left]
    simp
  have hruns : ∀ i, i < N → runs (T i) (s2.switches.drop s.switches.length) =
      M / N + (if i < M % N then 1 else 0) := by
    intro i hi
    rw [hdrop]
    exact runs_ring N T hN hd i hi M
  have hdisp : ∀ i, i < N →
      (dispatches (T i) (s2.switches.drop s.switches.length) = M / N ∧ (i = 0 ∨ M % N < i)) ∨
      (dispatches (T i) (s2.switches.drop s.switches.length) = M / N + 1 ∧
        0 < i ∧ i ≤ M % N) := by
    intro i hi
    rw [hdrop]
    exact dispatches_floor_ceil N T hN hd i hi M
  refine ⟨s2, e2, ?_, ?_⟩
  · intro i hi
    refine ⟨hruns i hi, ?_, ?_⟩
    · rw [hruns i hi]
      by_cases h : i < M % N
      · right
        rw [if_pos h, ceil_div N M hN (by omega)]
      · left
        rw [if_neg h]
        rfl
    · rcases hdisp i hi with ⟨h, -⟩ | ⟨h, h1, h2⟩
      · left
        exact h
      · right
        rw [h, ceil_div N M hN (by omega)]
  · intro i hi j hj
    constructor
    · rw [hruns i hi, hruns j hj]
      split_ifs <;> omega
    · rcases hdisp i hi with ⟨h, -⟩ | ⟨h, -, -⟩ <;>
        rcases hdisp j hj with ⟨h2, -⟩ | ⟨h2, -, -⟩ <;> omega

/-- The theorem `scheduler_is_fair` at the example ring after ten calls. -/
theorem scheduler_is_fair_witness :
    (demo_code.switch_ok ∧ 1 ≤ 4 ∧
      (∀ i, i < 4 → ∀ j, j < 4 → demo_env.ring.T i = demo_env.ring.T j → i = j) ∧
      Linked 4 demo_env.ring.T demo_started ∧
      demo_started.cur_thread = demo_env.ring.T 0) ∧
    ∃ s2, ticks demo_code (fun _ => print_local 1) 10 demo_started = some s2 ∧
      (∀ i, i < 4 →
        runs (demo_env.ring.T i) (s2.switches.drop demo_started.switches.length) =
          10 / 4 + (if i < 10 % 4 then 1 else 0) ∧
        (runs (demo_env.ring.T i) (s2.switches.drop demo_started.switches.length) = 10 / 4 ∨
          runs (demo_env.ring.T i) (s2.switches.drop demo_started.switches.length) =
            (10 + 4 - 1) / 4) ∧
        (dispatches (demo_env.ring.T i) (s2.switches.drop demo_started.switches.length)
            = 10 / 4 ∨
          dispatches (demo_env.ring.T i) (s2.switches.drop demo_started.switches.length) =
            (10 + 4 - 1) / 4)) ∧
      (∀ i, i < 4 → ∀ j, j < 4 →
        runs (demo_env.ring.T i) (s2.switches.drop demo_started.switches.length) ≤
          runs (demo_env.ring.T j) (s2.switches.drop demo_started.switches.length) + 1 ∧
        dispatches (demo_env.ring.T i) (s2.switches.drop demo_started.switches.length) ≤
          dispatches (demo_env.ring.T j) (s2.switches.drop demo_started.switches.length)
            + 1) :=
  ⟨⟨model_switch_ok demo_code rfl, by decide, by decide, by unfold Linked; decide, by decide⟩,
    scheduler_is_fair demo_code 4 demo_env.ring.T demo_started (fun _ => print_local 1) 10
      (model_switch_ok demo_code rfl) (by decide) (by decide) (by unfold Linked; decide)
      (by decide)
      (fun _ _ => ⟨rfl, rfl, rfl⟩)⟩

/-- C3: in every state reached from `start_scheduler(T 0)` on a freshly wired ring by
any number `k` of transfers of control, the stack pointer lies in the stack block of
exactly one ring position, `k mod N`, and `cur_thread` designates exactly that
descriptor; every other descriptor of the ring is suspended: its `saved_sp` points at a
`regs_t` inside its own 0x1000-byte stack block (`stack_page ≤ saved_sp` and
`saved_sp + sizeof(regs_t) ≤ stack_page + 0x1000`) whose return address is the thread's
entrypoint or the return address of the `cswitch` call in `scheduler`.  Inside
`scheduler`, `cur_thread` is already the incoming descriptor when `cswitch` is called. -/
theorem one_thread_runs_others_suspended (c : Code) (r : Ring) (scratch : Nat) (s : Machine)
    (hc : Code.ok c) (hr : Ring.ok r) (hw : Wired c r s) (hs : Startable r scratch s)
    (k : Nat) :
    (∃ s2, after c scratch (r.T 0) s k = some s2 ∧
      ∀ i, i < r.N →
        (OnStack r s2 i ↔ i = k % r.N) ∧ (s2.cur_thread = r.T i ↔ i = k % r.N) ∧
        (i ≠ k % r.N → Suspended c r s2 i)) ∧
    (∀ q o, deref q q.cur_thread = some o →
      scheduler c q =
        call_cswitch c c.scheduler_ret q.cur_thread o.next { q with cur_thread := o.next }) := by
  constructor
  · obtain ⟨s2, e2, h⟩ := after_inv c r scratch s hc hr hw hs k
    obtain ⟨hN, hT0, hinj, hfit, hdisj⟩ := hr
    have hk : k % r.N < r.N := Nat.mod_lt _ hN
    have hrsp := h.rsp
    have hBk := hfit _ hk
    have hon : OnStack r s2 (k % r.N) := by
      unfold OnStack
      rw [hrsp]
      unfold saved_sp_at
      split <;> omega
    refine ⟨s2, e2, fun i hi => ⟨?_, ?_, ?_⟩⟩
    · constructor
      · intro hi2
        by_contra hne
        have hd := hdisj i hi _ hk hne
        unfold OnStack at hon hi2
        omega
      · intro hi2
        rw [hi2]
        exact hon
    · rw [h.cur]
      constructor
      · intro hi2
        exact (hinj _ hk _ hi hi2).symm
      · intro hi2
        rw [hi2]
    · intro hne
      have hBi := hfit _ hi
      refine ⟨_, h.heap i hi, rfl, ?_, ?_, ?_⟩
      · show r.B i ≤ saved_sp_at r k i
        unfold saved_sp_at
        omega
      · show saved_sp_at r k i + sizeof_regs_t ≤ r.B i + 0x1000
        unfold saved_sp_at sizeof_regs_t
        split <;> omega
      · show (load_regs s2.mem (saved_sp_at r k i)).rip = _ ∨ _
        rw [load_regs_eq _ _ (saved_sp_at_fits r k i hBi).1]
        by_cases hik : i < k
        · right
          have := (h.yielded i hi hik).2.2.1
          simpa [saved_sp_at, hik] using this
        · left
          have := (h.fresh i hi (by omega)).1
          simpa [saved_sp_at, hik] using this
  · intro q o ho
    simp [scheduler, ho, bind, Option.bind]

/-- The theorem `one_thread_runs_others_suspended` at the example run of `main`, six
transfers after the start. -/
theorem one_thread_runs_others_suspended_witness :
    (Code.ok demo_code ∧ Ring.ok demo_env.ring ∧ Wired demo_code demo_env.ring demo_wired ∧
      Startable demo_env.ring demo_env.scratch demo_wired) ∧
    ((∃ s2, after demo_code demo_env.scratch (demo_env.ring.T 0) demo_wired 6 = some s2 ∧
      ∀ i, i < demo_env.ring.N →
        (OnStack demo_env.ring s2 i ↔ i = 6 % demo_env.ring.N) ∧
        (s2.cur_thread = demo_env.ring.T i ↔ i = 6 % demo_env.ring.N) ∧
        (i ≠ 6 % demo_env.ring.N → Suspended demo_code demo_env.ring s2 i)) ∧
    (∀ q o, deref q q.cur_thread = some o →
      scheduler demo_code q =
        call_cswitch demo_code demo_code.scheduler_ret q.cur_thread o.next
          { q with cur_thread := o.next })) :=
  ⟨⟨⟨by decide, by decide, by decide, by decide, rfl⟩, by unfold Ring.ok; decide,
      by unfold Wired; decide, by unfold Startable; decide⟩,
    one_thread_runs_others_suspended demo_code demo_env.ring demo_env.scratch demo_wired
      ⟨by decide, by decide, by decide, by decide, rfl⟩ (by unfold Ring.ok; decide)
      (by unfold Wired; decide) (by unfold Startable; decide) 6⟩

/-- C4: for every entrypoint and every successful allocation, of a descriptor `t` and
of a stack block `[B, B + 0x1000)` of the address space (neither pointer `NULL`),
`create_thread(entrypoint)` returns its descriptor `t` with `stack_page = B`,
`next = NULL` and `saved_sp = B + 0x1000 - 0x10 - sizeof(regs_t) = B + 0xFB8`, where
`sizeof(regs_t) = 56`; the register frame `[saved_sp, saved_sp + 56)` ends at
`B + 0xFF0`, the top of the block minus the gap of 0x10, and lies inside the block; its
`rip` slot, at `saved_sp + 48`, holds `entrypoint`, and no other word of memory and no
other descriptor is written. -/
theorem create_thread_builds_initial_frame (entrypoint t B : Nat) (s : Machine)
    (ht : t ≠ 0) (hB : B ≠ 0) (hfit : B + 0x1000 ≤ 2 ^ 64) :
    ∃ s2 o, create_thread entrypoint t B s = some (t, s2) ∧ s2.heap t = some o ∧
      o.stack_page = B ∧ o.next = 0 ∧
      o.saved_sp = B + 0x1000 - 0x10 - sizeof_regs_t ∧ o.saved_sp = B + 0xFB8 ∧
      sizeof_regs_t = 56 ∧
      o.saved_sp + sizeof_regs_t = B + 0xFF0 ∧ B + 0xFF0 = B + 0x1000 - 0x10 ∧
      B ≤ o.saved_sp ∧ o.saved_sp + sizeof_regs_t ≤ B + 0x1000 ∧
      s2.mem (o.saved_sp + 48) = entrypoint ∧ (load_regs s2.mem o.saved_sp).rip = entrypoint ∧
      (∀ a, a ≠ o.saved_sp + 48 → s2.mem a = s.mem a) ∧
      (∀ p, p ≠ t → s2.heap p = s.heap p) := by
  obtain ⟨q, p⟩ := frame_top B hfit
  refine ⟨_, ⟨B + 0xFB8, B, 0⟩, create_thread_eq entrypoint t B s ht hB, ?_, rfl, rfl, ?_, rfl,
    rfl,
    ?_, ?_, ?_, ?_, ?_, ?_, ?_, ?_⟩
  · simp [created, q]
  · show B + 0xFB8 = B + 0x1000 - 0x10 - sizeof_regs_t
    unfold sizeof_regs_t
    omega
  · show B + 0xFB8 + sizeof_regs_t = B + 0xFF0
    unfold sizeof_regs_t
    omega
  · omega
  · show B ≤ B + 0xFB8
    omega
  · show B + 0xFB8 + sizeof_regs_t ≤ B + 0x1000
    unfold sizeof_regs_t
    omega
  · simp [created, q, p, store]
  · show (load_regs (created entrypoint t B s).mem (B + 0xFB8)).rip = entrypoint
    rw [load_regs_eq _ _ (by omega)]
    simp [created, q, p, store]
  · intro a ha
    simp only [created, q, p, store]
    exact if_neg ha
  · intro x hx
    simp [created, hx]

/-- The theorem `create_thread_builds_initial_frame` at the first allocation of the
example run. -/
theorem create_thread_builds_initial_frame_witness :
    ((0x10000 : Nat) ≠ 0 ∧ (0x20000 : Nat) ≠ 0 ∧ 0x20000 + 0x1000 ≤ 2 ^ 64) ∧
    ∃ s2 o, create_thread 0x401136 0x10000 0x20000 demo_boot = some (0x10000, s2) ∧
      s2.heap 0x10000 = some o ∧
      o.stack_page = 0x20000 ∧ o.next = 0 ∧
      o.saved_sp = 0x20000 + 0x1000 - 0x10 - sizeof_regs_t ∧ o.saved_sp = 0x20000 + 0xFB8 ∧
      sizeof_regs_t = 56 ∧
      o.saved_sp + sizeof_regs_t = 0x20000 + 0xFF0 ∧
      0x20000 + 0xFF0 = 0x20000 + 0x1000 - 0x10 ∧
      0x20000 ≤ o.saved_sp ∧ o.saved_sp + sizeof_regs_t ≤ 0x20000 + 0x1000 ∧
      s2.mem (o.saved_sp + 48) = 0x401136 ∧ (load_regs s2.mem o.saved_sp).rip = 0x401136 ∧
      (∀ a, a ≠ o.saved_sp + 48 → s2.mem a = demo_boot.mem a) ∧
      (∀ p, p ≠ 0x10000 → s2.heap p = demo_boot.heap p) :=
  ⟨⟨by decide, by decide, by decide⟩,
    create_thread_builds_initial_frame 0x401136 0x10000 0x20000 demo_boot (by decide)
      (by decide) (by decide)⟩

/-- C5: for every descriptor `T i0` of a ring that does not hold `scratch`,
`start_scheduler(T i0)` sets `cur_thread = T i0` and makes exactly one call of `cswitch`,
`cswitch(scratch, T i0)`; in every later call of `scheduler()` neither argument of
`cswitch` is `scratch` (so its `saved_sp` is never read), `cur_thread` is never
`scratch`, and the `scratch` object is never written again. -/
theorem start_scheduler_switches_once_from_scratch (c : Code) (N : Nat) (T : Nat → Nat)
    (s : Machine) (scratch i0 : Nat) (work : Nat → Machine → Machine) (M : Nat)
    (hk : c.switch_ok) (hl : Linked N T s) (hi : i0 < N) (h0 : scratch ≠ 0) (hs : ∀ i, i < N → T i ≠ scratch)
    (hw : ∀ k, Local (work k)) :
    ∃ s1, start_scheduler c scratch (T i0) s = some s1 ∧ s1.cur_thread = T i0 ∧
      s1.switches = s.switches ++ [(scratch, T i0)] ∧
      ∃ s2, ticks c work M s1 = some s2 ∧ s2.cur_thread ≠ scratch ∧
        s2.switches.take s1.switches.length = s1.switches ∧
        (s2.switches.drop s1.switches.length).length = M ∧
        (∀ p ∈ s2.switches.drop s1.switches.length, p.1 ≠ scratch ∧ p.2 ≠ scratch) ∧
        s2.heap scratch = s1.heap scratch := by
  have hN : 0 < N := by omega
  obtain ⟨s1, e1, hl1, hc1, hsw1, -⟩ := start_linked c hk N T s scratch i0 hl hi h0 hs
  obtain ⟨s2, e2, -, hc2, hsw2, hh2⟩ :=
    ticks_linked c hk N T hN work hw s1 i0 hl1 (by rw [hc1, Nat.mod_eq_of_lt hi]) M
  refine ⟨s1, e1, hc1, hsw1, s2, e2, ?_, ?_, ?_, ?_, ?_⟩
  · rw [hc2]
    exact hs _ (Nat.mod_lt _ hN)
  · rw [hsw2, List.take_left]
  · rw [hsw2, List.drop_left]
    simp
  · rw [hsw2, List.drop_left]
    intro p hp
    obtain ⟨k, -, rfl⟩ := List.mem_map.1 hp
    exact ⟨hs _ (Nat.mod_lt _ hN), hs _ (Nat.mod_lt _ hN)⟩
  · exact hh2 scratch (fun i hi2 h => hs i hi2 h.symm)

/-- The theorem `start_scheduler_switches_once_from_scratch` at the example ring,
started on its first thread and followed by nine calls of `scheduler()`. -/
theorem start_scheduler_switches_once_from_scratch_witness :
    (demo_code.switch_ok ∧ Linked 4 demo_env.ring.T demo_wired ∧ 0 < 4 ∧
      demo_env.scratch ≠ 0 ∧
      (∀ i, i < 4 → demo_env.ring.T i ≠ demo_env.scratch)) ∧
    ∃ s1, start_scheduler demo_code demo_env.scratch (demo_env.ring.T 0) demo_wired = some s1 ∧
      s1.cur_thread = demo_env.ring.T 0 ∧
      s1.switches = demo_wired.switches ++ [(demo_env.scratch, demo_env.ring.T 0)] ∧
      ∃ s2, ticks demo_code (fun _ => print_local 1) 9 s1 = some s2 ∧
        s2.cur_thread ≠ demo_env.scratch ∧
        s2.switches.take s1.switches.length = s1.switches ∧
        (s2.switches.drop s1.switches.length).length = 9 ∧
        (∀ p ∈ s2.switches.drop s1.switches.length,
          p.1 ≠ demo_env.scratch ∧ p.2 ≠ demo_env.scratch) ∧
        s2.heap demo_env.scratch = s1.heap demo_env.scratch :=
  ⟨⟨model_switch_ok demo_code rfl, by unfold Linked; decide, by decide, by decide, by decide⟩,
    start_scheduler_switches_once_from_scratch demo_code 4 demo_env.ring.T demo_wired
      demo_env.scratch 0 (fun _ => print_local 1) 9 (model_switch_ok demo_code rfl)
      (by unfold Linked; decide) (by decide)
      (by decide) (by decide) (fun _ _ => ⟨rfl, rfl, rfl⟩)⟩

/-- C6: two threads are created with `func1` and `func2` (all allocations succeed),
linked into a cycle of two, and the scheduler is started on the `func1` thread.  Six
calls of `scheduler()` after the initial dispatch, the lines printed by the thread
bodies carry exactly the values `1111, 2222, 1111, 2222, 1111, 2222` (hexadecimal), each
printed by the turn that then made the call. -/
theorem two_threads_print_alternately (c : Code) (t0 stack0 t1 stack1 scratch : Nat)
    (s : Machine) (hc : Code.ok c) (hr : Ring.ok (pair_ring t0 stack0 t1 stack1))
    (hb0 : stack0 ≠ 0) (hb1 : stack1 ≠ 0)
    (hs : Startable (pair_ring t0 stack0 t1 stack1) scratch s) :
    ∃ s2, (two_threads c t0 stack0 t1 stack1 scratch s).bind (run c 6) = some s2 ∧
      s2.stdout = s.stdout ++
        [Line.created t0 c.func1 stack0, Line.created t1 c.func2 stack1] ++
        [Line.in_function 1 0x1111, Line.in_function 2 0x2222, Line.in_function 1 0x1111,
          Line.in_function 2 0x2222, Line.in_function 1 0x1111, Line.in_function 2 0x2222] ∧
      s2.switches = s.switches ++
        [(scratch, t0), (t0, t1), (t1, t0), (t0, t1), (t1, t0), (t0, t1), (t1, t0)] := by
  obtain ⟨e1, hw, hrsp, hsw, hout⟩ := pair_wired c t0 stack0 t1 stack1 scratch s hr hb0 hb1
  obtain ⟨s2, e2, h2⟩ := after_inv c (pair_ring t0 stack0 t1 stack1) scratch
    (pair_threads c t0 stack0 t1 stack1 s) hc hr hw (startable_of_rsp _ _ _ _ hrsp hs) 6
  refine ⟨s2, by rw [e1]; exact e2, ?_, ?_⟩
  · rw [h2.stdout, hout]
    simp [printed, pair_ring, List.range_succ, fn_number, local_var]
  · rw [h2.switches, hsw]
    simp [switched_pairs, pair_ring, List.range_succ]

/-- The theorem `two_threads_print_alternately` at concrete addresses. -/
theorem two_threads_print_alternately_witness :
    (Code.ok demo_code ∧ Ring.ok (pair_ring 0x10000 0x20000 0x10020 0x21000) ∧
      (0x20000 : Nat) ≠ 0 ∧ (0x21000 : Nat) ≠ 0 ∧
      Startable (pair_ring 0x10000 0x20000 0x10020 0x21000) 0x7FE0 demo_boot) ∧
    ∃ s2, (two_threads demo_code 0x10000 0x20000 0x10020 0x21000 0x7FE0 demo_boot).bind
        (run demo_code 6) = some s2 ∧
      s2.stdout = demo_boot.stdout ++
        [Line.created 0x10000 demo_code.func1 0x20000,
          Line.created 0x10020 demo_code.func2 0x21000] ++
        [Line.in_function 1 0x1111, Line.in_function 2 0x2222, Line.in_function 1 0x1111,
          Line.in_function 2 0x2222, Line.in_function 1 0x1111, Line.in_function 2 0x2222] ∧
      s2.switches = demo_boot.switches ++
        [(0x7FE0, 0x10000), (0x10000, 0x10020), (0x10020, 0x10000), (0x10000, 0x10020),
          (0x10020, 0x10000), (0x10000, 0x10020), (0x10020, 0x10000)] :=
  ⟨⟨⟨by decide, by decide, by decide, by decide, rfl⟩, by unfold Ring.ok; decide,
      by decide, by decide, by unfold Startable; decide⟩,
    two_threads_print_alternately demo_code 0x10000 0x20000 0x10020 0x21000 0x7FE0 demo_boot
      ⟨by decide, by decide, by decide, by decide, rfl⟩ (by unfold Ring.ok; decide)
      (by decide) (by decide) (by unfold Startable; decide)⟩

/-- C7: a switch away and eventually back behaves for a thread like an ordinary
function call that returns, whatever the thread bodies are.  Take any run from a
freshly wired ring in which each thread, while it runs, keeps to its own stack block
(it does not overflow it and writes nowhere else).  Let the thread of turn `k` call
`scheduler()` in state `work k p`.  Then during the `N - 1` turns of the other threads
its descriptor still points to the `regs_t` that `cswitch` pushed on its stack, that
frame holds its callee-saved registers and the return address of the call, and no other
word of its stack block has changed.  `N` calls later the thread is running again, at
the return address of its call of `cswitch`, with the stack pointer and the six
callee-saved registers of the call and with every word of its stack from the stack
pointer to the end of the block as it was: whatever local state the body keeps in its
frame or in callee-saved registers, such as `local_var` of `func1` and `func2`, it
finds bit for bit unchanged.  This holds at every turn `k`, hence for any number of
suspensions.  For the thread bodies of the program it shows in what they print: in a
run of `func1` and `func2` threads every line printed in a turn carries the value the
thread gave its `local_var` at its start, 0x1111 or 0x2222, however many turns the
other threads have had. -/
theorem thread_state_survives_suspension (c : Code) (r : Ring) (scratch : Nat) (s : Machine)
    (work : Nat → Machine → Machine)
    (hc : Code.ok c) (hr : Ring.ok r) (hw : Wired c r s)
    (hs : Startable r scratch s)
    (hwork : ∀ j p, turns c work scratch (r.T 0) s j = some p →
      Confined r (j % r.N) (work j) p)
    (k : Nat) :
    (∃ p q, turns c work scratch (r.T 0) s k = some p ∧
      turns c work scratch (r.T 0) s (k + r.N) = some q ∧
      (∀ d, d < r.N → ∃ sj, turns c work scratch (r.T 0) s (k + 1 + d) = some sj ∧
        (d + 1 < r.N → sj.cur_thread ≠ r.T (k % r.N)) ∧
        sj.heap (r.T (k % r.N)) =
          some ⟨(work k p).rsp - 56, r.B (k % r.N), r.T ((k + 1) % r.N)⟩ ∧
        load_regs sj.mem ((work k p).rsp - 56) =
          ⟨(work k p).rbx, (work k p).rbp, (work k p).r12, (work k p).r13, (work k p).r14,
            (work k p).r15, c.scheduler_ret⟩ ∧
        (∀ a, r.B (k % r.N) ≤ a → a < r.B (k % r.N) + 0x1000 →
          a < (work k p).rsp - 56 ∨ (work k p).rsp ≤ a → sj.mem a = (work k p).mem a)) ∧
      q.cur_thread = r.T (k % r.N) ∧ q.rip = c.scheduler_ret ∧ q.rsp = (work k p).rsp ∧
      q.rbx = (work k p).rbx ∧ q.rbp = (work k p).rbp ∧ q.r12 = (work k p).r12 ∧
      q.r13 = (work k p).r13 ∧ q.r14 = (work k p).r14 ∧ q.r15 = (work k p).r15 ∧
      (∀ a, (work k p).rsp ≤ a → a < r.B (k % r.N) + 0x1000 →
        q.mem a = (work k p).mem a)) ∧
    (∀ n, ∃ sn, after c scratch (r.T 0) s n = some sn ∧
      sn.stdout = s.stdout ++ (List.range n).map fun j =>
        Line.in_function (fn_number (r.body (j % r.N))) (local_var (r.body (j % r.N)))) := by
  refine ⟨?_, fun n => ?_⟩
  swap
  · obtain ⟨sn, en, hn⟩ := after_inv c r scratch s hc hr hw hs n
    exact ⟨sn, en, hn.stdout⟩
  have hcs : c.cswitch = cswitch := hc.2.2.2.2
  have hwork2 : ∀ j p, turns c work scratch (r.T 0) s j = some p → Given r j p →
      Confined r (j % r.N) (work j) p := fun j p e _ => hwork j p e
  obtain ⟨p, ep, hp⟩ := given_run c hcs r hr scratch s work hw hs hwork2 k
  have hcf := hwork k p ep
  obtain ⟨p1, e1, h1, -, -, g3, g4, g5⟩ := given_step c hcs r hr k p (work k) hp hcf
  have ek1 : turns c work scratch (r.T 0) s (k + 1) = some p1 := by
    rw [turns_succ, ep]
    exact e1
  obtain ⟨-, -, -, -, hlo, hhi⟩ := hcf
  have hr2 := hr
  obtain ⟨hN, hT0, hinj, hfit, hdisj⟩ := hr
  have hk : k % r.N < r.N := Nat.mod_lt _ hN
  have hB := hfit _ hk
  have hall : ∀ d, d < r.N → ∃ sj, turns c work scratch (r.T 0) s (k + 1 + d) = some sj ∧
      Given r (k + 1 + d) sj ∧
      sj.heap (r.T (k % r.N)) =
        some ⟨(work k p).rsp - 56, r.B (k % r.N), r.T ((k + 1) % r.N)⟩ ∧
      load_regs sj.mem ((work k p).rsp - 56) =
        ⟨(work k p).rbx, (work k p).rbp, (work k p).r12, (work k p).r13, (work k p).r14,
          (work k p).r15, c.scheduler_ret⟩ ∧
      (∀ a, r.B (k % r.N) ≤ a → a < r.B (k % r.N) + 0x1000 →
        a < (work k p).rsp - 56 ∨ (work k p).rsp ≤ a → sj.mem a = (work k p).mem a) := by
    intro d hd
    obtain ⟨sj, ej, hj, hheap, hmem⟩ :=
      suspended_kept c hcs r hr2 scratch s work hwork2 k p1 ek1 h1 d hd
    refine ⟨sj, ej, hj, by rw [hheap, g3], ?_, ?_⟩
    · rw [← g5]
      exact load_regs_congr _ _ _ (by omega) fun a ha1 ha2 =>
        hmem a (by omega) (by omega)
    · intro a ha1 ha2 ha3
      rw [hmem a ha1 ha2]
      exact g4 a ha3
  obtain ⟨q, eq, hq, hqheap, hqregs, hqmem⟩ := hall (r.N - 1) (by omega)
  have eN : k + 1 + (r.N - 1) = k + r.N := by omega
  rw [eN] at eq hq
  have hmodN : (k + r.N) % r.N = k % r.N := Nat.add_mod_right k r.N
  obtain ⟨n, hn, hrsp, r1, r2, r3, r4, r5, r6, r7⟩ := hq.loaded
  rw [hmodN, hqheap] at hn
  have en : n.saved_sp = (work k p).rsp - 56 := by
    rw [← Option.some.inj hn]
  rw [en] at hrsp r1 r2 r3 r4 r5 r6 r7
  rw [hqregs] at r1 r2 r3 r4 r5 r6 r7
  refine ⟨p, q, ep, eq, ?_, ?_, r7, ?_, r1, r2, r3, r4, r5, r6, ?_⟩
  · intro d hd
    obtain ⟨sj, ej, hj, hrest⟩ := hall d hd
    refine ⟨sj, ej, ?_, hrest⟩
    intro hd1
    rw [hj.cur]
    intro hT
    have hne : (k + 1 + d) % r.N ≠ k % r.N := by
      rw [Nat.add_assoc]
      exact mod_add_ne r.N k (1 + d) (by omega) (by omega)
    exact hne (hinj _ (Nat.mod_lt _ hN) _ hk hT)
  · rw [hq.cur, hmodN]
  · rw [hrsp, add64_eq _ _ (by simp only [sizeof_regs_t, Nat.reduceMul]; omega)]
    simp only [sizeof_regs_t, Nat.reduceMul]
    omega
  · intro a ha1 ha2
    exact hqmem a (by omega) ha2 (Or.inr ha1)

/-- The theorem `thread_state_survives_suspension` at the example run of `main`, with
thread bodies that store the number of the turn on their stack and in `r12`, for the
turn of the second thread that starts five calls after the start. -/
theorem thread_state_survives_suspension_witness :
    (Code.ok demo_code ∧ Ring.ok demo_env.ring ∧
      Wired demo_code demo_env.ring demo_wired ∧
      Startable demo_env.ring demo_env.scratch demo_wired ∧
      ∀ j p, turns demo_code demo_work demo_env.scratch (demo_env.ring.T 0) demo_wired j
          = some p → Confined demo_env.ring (j % demo_env.ring.N) (demo_work j) p) ∧
    ((∃ p q,
      turns demo_code demo_work demo_env.scratch (demo_env.ring.T 0) demo_wired 5 = some p ∧
      turns demo_code demo_work demo_env.scratch (demo_env.ring.T 0) demo_wired
        (5 + demo_env.ring.N) = some q ∧
      (∀ d, d < demo_env.ring.N → ∃ sj,
        turns demo_code demo_work demo_env.scratch (demo_env.ring.T 0) demo_wired
          (5 + 1 + d) = some sj ∧
        (d + 1 < demo_env.ring.N → sj.cur_thread ≠ demo_env.ring.T (5 % demo_env.ring.N)) ∧
        sj.heap (demo_env.ring.T (5 % demo_env.ring.N)) =
          some ⟨(demo_work 5 p).rsp - 56, demo_env.ring.B (5 % demo_env.ring.N),
            demo_env.ring.T ((5 + 1) % demo_env.ring.N)⟩ ∧
        load_regs sj.mem ((demo_work 5 p).rsp - 56) =
          ⟨(demo_work 5 p).rbx, (demo_work 5 p).rbp, (demo_work 5 p).r12,
            (demo_work 5 p).r13, (demo_work 5 p).r14, (demo_work 5 p).r15,
            demo_code.scheduler_ret⟩ ∧
        (∀ a, demo_env.ring.B (5 % demo_env.ring.N) ≤ a →
          a < demo_env.ring.B (5 % demo_env.ring.N) + 0x1000 →
          a < (demo_work 5 p).rsp - 56 ∨ (demo_work 5 p).rsp ≤ a →
          sj.mem a = (demo_work 5 p).mem a)) ∧
      q.cur_thread = demo_env.ring.T (5 % demo_env.ring.N) ∧
      q.rip = demo_code.scheduler_ret ∧ q.rsp = (demo_work 5 p).rsp ∧
      q.rbx = (demo_work 5 p).rbx ∧ q.rbp = (demo_work 5 p).rbp ∧
      q.r12 = (demo_work 5 p).r12 ∧ q.r13 = (demo_work 5 p).r13 ∧
      q.r14 = (demo_work 5 p).r14 ∧ q.r15 = (demo_work 5 p).r15 ∧
      (∀ a, (demo_work 5 p).rsp ≤ a → a < demo_env.ring.B (5 % demo_env.ring.N) + 0x1000 →
        q.mem a = (demo_work 5 p).mem a)) ∧
    (∀ n, ∃ sn, after demo_code demo_env.scratch (demo_env.ring.T 0) demo_wired n = some sn ∧
      sn.stdout = demo_wired.stdout ++ (List.range n).map fun j =>
        Line.in_function (fn_number (demo_env.ring.body (j % demo_env.ring.N)))
          (local_var (demo_env.ring.body (j % demo_env.ring.N))))) :=
  ⟨⟨⟨by decide, by decide, by decide, by decide, rfl⟩, by unfold Ring.ok; decide, by unfold Wired; decide, by unfold Startable; decide,
      run_confined demo_code rfl demo_env.ring (by unfold Ring.ok; decide) demo_env.scratch
        demo_wired demo_work (by unfold Wired; decide) (by unfold Startable; decide)
        (demo_work_confined demo_env.ring (by unfold Ring.ok; decide))⟩,
    thread_state_survives_suspension demo_code demo_env.ring demo_env.scratch demo_wired
      demo_work ⟨by decide, by decide, by decide, by decide, rfl⟩ (by unfold Ring.ok; decide) (by unfold Wired; decide)
      (by unfold Startable; decide)
      (run_confined demo_code rfl demo_env.ring (by unfold Ring.ok; decide) demo_env.scratch
        demo_wired demo_work (by unfold Wired; decide) (by unfold Startable; decide)
        (demo_work_confined demo_env.ring (by unfold Ring.ok; decide))) 5⟩

/-- C8: a failed allocation in `create_thread` is fatal, though the source tests the
result of neither `malloc`: `create_thread` goes on to access both objects, the
descriptor in its first assignment (line 40) and the stack block when it stores the
entrypoint in the initial frame (line 50), and an access through `NULL` has no result.
So when the allocation of the descriptor or of the stack block fails, the run ends
inside `create_thread`: no descriptor is returned and no write through the failed
allocation takes effect.  `create_thread` fails in no other case: it returns exactly
when both allocations have succeeded. -/
theorem create_thread_allocation_failure_is_fatal (entrypoint t stack : Nat) (s : Machine) :
    (create_thread entrypoint t stack s = none ↔ (t = 0 ∨ stack = 0)) ∧
    (set_stack_page 0 stack (new_thread 0 s) = none) ∧
    (∀ p v s1, store_in 0 p v s1 = none) := by
  refine ⟨⟨fun h => ?_, fun h => ?_⟩, ?_, ?_⟩
  · by_contra hne
    rw [not_or] at hne
    rw [create_thread_eq entrypoint t stack s hne.1 hne.2] at h
    exact absurd h (by simp)
  · rcases h with h | h
    · subst h
      exact create_thread_null entrypoint stack s
    · subst h
      exact create_thread_no_stack entrypoint t s
  · simp [set_stack_page, deref]
  · intro p v s1
    simp [store_in]

/-- The theorem `create_thread_allocation_failure_is_fatal` at the first allocations of
the example run: each allocation failing in turn, and both succeeding. -/
theorem create_thread_allocation_failure_is_fatal_witness :
    create_thread 0x401136 0 0x20000 demo_boot = none ∧
    create_thread 0x401136 0x10000 0 demo_boot = none ∧
    create_thread 0x401136 0x10000 0x20000 demo_boot ≠ none :=
  ⟨(create_thread_allocation_failure_is_fatal 0x401136 0 0x20000 demo_boot).1.2
      (Or.inl rfl),
    (create_thread_allocation_failure_is_fatal 0x401136 0x10000 0 demo_boot).1.2
      (Or.inr rfl),
    fun h => absurd
      ((create_thread_allocation_failure_is_fatal 0x401136 0x10000 0x20000 demo_boot).1.1 h)
      (by decide)⟩

/-- C9: `cur_thread` and the list of `cswitch` calls change only in `scheduler()` and
`start_scheduler()`, whatever routine `cswitch` meeting `Code.switch_ok` is linked.  A
successful call of `scheduler()` makes exactly one call of
`cswitch`, from the old to the new `cur_thread`; `start_scheduler(init)` makes exactly
one, from `scratch` to `init`, and sets `cur_thread = init`; every transfer of control of
the machine is one such call.  Any sequence of the other steps of the program (a thread
body putting words on its stack and printing, `main` creating and linking threads)
leaves `cur_thread`, the list of `cswitch` calls and the address control was transferred
to unchanged: a thread body that never calls `scheduler()` keeps `cur_thread` fixed and
no other thread is switched to. -/
theorem control_changes_only_in_scheduler (c : Code) (steps : List Step)
    (s s2 a a2 b b2 d d2 : Machine) (scratch init : Nat) (hk : c.switch_ok)
    (hs : exec steps s = some s2) (ha : scheduler c a = some a2)
    (hb : start_scheduler c scratch init b = some b2) (hd : resume c d = some d2) :
    (s2.cur_thread = s.cur_thread ∧ s2.switches = s.switches ∧ s2.rip = s.rip) ∧
    a2.switches = a.switches ++ [(a.cur_thread, a2.cur_thread)] ∧
    (b2.cur_thread = init ∧ b2.switches = b.switches ++ [(scratch, init)]) ∧
    d2.switches = d.switches ++ [(d.cur_thread, d2.cur_thread)] := by
  refine ⟨exec_keeps steps s s2 hs, scheduler_some c hk a a2 ha, ?_,
    resume_some c hk d d2 hd⟩
  obtain ⟨h1, h2, -⟩ := call_cswitch_some c hk _ _ _ _ _ hb
  refine ⟨h1, ?_⟩
  rw [h2]
  show (new_thread scratch b).switches ++ _ = _
  unfold new_thread
  split <;> rfl

/-- The theorem `control_changes_only_in_scheduler` at the example run: a thread that
only prints, one call of `scheduler()`, the call of `start_scheduler` and the first
transfer of control. -/
theorem control_changes_only_in_scheduler_witness :
    ∃ s2 a2 b2 d2,
      (demo_code.switch_ok ∧ exec demo_steps demo_running = some s2 ∧ scheduler demo_code demo_started = some a2 ∧
        start_scheduler demo_code demo_env.scratch 0x10000 demo_wired = some b2 ∧
        resume demo_code demo_running = some d2) ∧
      ((s2.cur_thread = demo_running.cur_thread ∧ s2.switches = demo_running.switches ∧
          s2.rip = demo_running.rip) ∧
        a2.switches = demo_started.switches ++ [(demo_started.cur_thread, a2.cur_thread)] ∧
        (b2.cur_thread = 0x10000 ∧
          b2.switches = demo_wired.switches ++ [(demo_env.scratch, 0x10000)]) ∧
        d2.switches = demo_running.switches ++ [(demo_running.cur_thread, d2.cur_thread)]) :=
  ⟨(exec demo_steps demo_running).getD demo_boot,
    (scheduler demo_code demo_started).getD demo_boot,
    (start_scheduler demo_code demo_env.scratch 0x10000 demo_wired).getD demo_boot,
    (resume demo_code demo_running).getD demo_boot,
    ⟨model_switch_ok demo_code rfl, rfl, rfl, rfl, rfl⟩,
    control_changes_only_in_scheduler demo_code demo_steps demo_running _ demo_started _
      demo_wired _ demo_running _ demo_env.scratch 0x10000 (model_switch_ok demo_code rfl)
      rfl rfl rfl rfl⟩

/-- C10: let the descriptors of `ds` form a ring that holds `cur_thread`: each exists,
is not `NULL`, and its `next` is again in `ds` (as `main` wires them), and let `cswitch`
meet `Code.switch_ok`.  Then any number `M` of calls of `scheduler()`, with any work of
the thread bodies in between, succeeds: no dereference meets `NULL`; afterwards
`cur_thread` is a non-`NULL` member of the ring, the ring is still well formed, every
descriptor has the `next` and `stack_page` it had, and descriptors outside the ring are
untouched.  A single call sets `cur_thread` to the `next` of the outgoing descriptor and
changes no descriptor but the outgoing one, which keeps its `next` and `stack_page`. -/
theorem scheduler_keeps_ring_and_never_fails (c : Code) (ds : List Nat) (s : Machine)
    (work : Nat → Machine → Machine) (M : Nat)
    (hk : c.switch_ok) (hwf : WellFormed ds s) (hw : ∀ k, Local (work k)) :
    (∃ s2, ticks c work M s = some s2 ∧ WellFormed ds s2 ∧
      s2.cur_thread ≠ 0 ∧ s2.cur_thread ∈ ds ∧
      (∀ p, (s2.heap p).map thread_t.next = (s.heap p).map thread_t.next ∧
        (s2.heap p).map thread_t.stack_page = (s.heap p).map thread_t.stack_page) ∧
      (∀ p, p ∉ ds → s2.heap p = s.heap p)) ∧
    (∃ s1 o o1, scheduler c s = some s1 ∧ s.heap s.cur_thread = some o ∧
      s1.cur_thread = o.next ∧ s1.cur_thread ≠ 0 ∧
      s1.heap s.cur_thread = some o1 ∧ o1.next = o.next ∧ o1.stack_page = o.stack_page ∧
      (∀ p, p ≠ s.cur_thread → s1.heap p = s.heap p)) := by
  constructor
  · obtain ⟨s2, e2, hwf2, hm, hout⟩ := ticks_wf c hk ds work hw s hwf M
    exact ⟨s2, e2, hwf2, (hwf2.2 _ hwf2.1).1, hwf2.1, hm, hout⟩
  · obtain ⟨hcur, hall⟩ := hwf
    obtain ⟨h0, q, hq, hmap⟩ := hall _ hcur
    obtain ⟨o, ho, rfl⟩ := Option.map_eq_some'.1 hmap
    obtain ⟨hq0, q2, -, hmap2⟩ := hall _ hq
    obtain ⟨n, hn, -⟩ := Option.map_eq_some'.1 hmap2
    obtain ⟨s1, e, h1, -, h3, h4, h5⟩ := scheduler_step c hk s o n h0 hq0 ho hn
    obtain ⟨o1, ho1, hn1⟩ := Option.map_eq_some'.1 h4
    rw [ho1] at h5
    exact ⟨s1, o, o1, e, ho, h1, by rw [h1]; exact hq0, ho1, hn1, Option.some.inj h5, h3⟩

/-- The theorem `scheduler_keeps_ring_and_never_fails` at the ring of the example run,
for twelve calls of `scheduler()`. -/
theorem scheduler_keeps_ring_and_never_fails_witness :
    (demo_code.switch_ok ∧ WellFormed [0x10000, 0x10020, 0x10040, 0x10060] demo_started) ∧
    ((∃ s2, ticks demo_code (fun _ => print_local 1) 12 demo_started = some s2 ∧
      WellFormed [0x10000, 0x10020, 0x10040, 0x10060] s2 ∧
      s2.cur_thread ≠ 0 ∧ s2.cur_thread ∈ [0x10000, 0x10020, 0x10040, 0x10060] ∧
      (∀ p, (s2.heap p).map thread_t.next = (demo_started.heap p).map thread_t.next ∧
        (s2.heap p).map thread_t.stack_page =
          (demo_started.heap p).map thread_t.stack_page) ∧
      (∀ p, p ∉ [0x10000, 0x10020, 0x10040, 0x10060] → s2.heap p = demo_started.heap p)) ∧
    (∃ s1 o o1, scheduler demo_code demo_started = some s1 ∧
      demo_started.heap demo_started.cur_thread = some o ∧
      s1.cur_thread = o.next ∧ s1.cur_thread ≠ 0 ∧
      s1.heap demo_started.cur_thread = some o1 ∧ o1.next = o.next ∧
      o1.stack_page = o.stack_page ∧
      (∀ p, p ≠ demo_started.cur_thread → s1.heap p = demo_started.heap p))) :=
  ⟨⟨model_switch_ok demo_code rfl, by unfold WellFormed; decide⟩,
    scheduler_keeps_ring_and_never_fails demo_code [0x10000, 0x10020, 0x10040, 0x10060]
      demo_started (fun _ => print_local 1) 12 (model_switch_ok demo_code rfl)
      (by unfold WellFormed; decide) (fun _ _ => ⟨rfl, rfl, rfl⟩)⟩

end CSwitch
